import Mathlib

/-!
Shallow embedding of the multi-signal commit clustering engine of
commitkit-desktop (src/utils/grouping.ts as concatenated in
src/integrations/jira.ts, and the AI post-processing in
src/services/ollama.ts), together with proofs of the specification's
testable properties.

Modelling conventions:
* JavaScript numbers used for confidences/thresholds/similarities are
  modelled as rationals; timestamps (Date.getTime, milliseconds) as
  integers.
* A JavaScript Map is modelled as an association list in insertion
  order: Map.set updates in place when the key is present and appends
  otherwise, exactly like the JS semantics for iteration order.
* JavaScript truthiness on optional strings (null/undefined/"" falsy)
  is modelled by strTruthy.
* Array.prototype.sort with a comparator is stable in modern engines;
  it is modelled by a structural stable insertion sort.
-/

namespace CommitKit

/-- JS truthiness of a nullable string: null/undefined or "" are falsy. -/
def strTruthy : Option String → Bool
  | none => false
  | some s => !(s == "")

/-- JS `a || b` for strings: empty string falls through to the default. -/
def jsOr (a b : String) : String := if a == "" then b else a

/-- JS `x?.f || b` where `x?.f` is a nullable string. -/
def jsOrOpt : Option String → String → String
  | none, b => b
  | some a, b => jsOr a b

/-- Map.get: first (and only) binding of the key in an association list. -/
def alGet {κ α : Type} [BEq κ] : List (κ × α) → κ → Option α
  | [], _ => none
  | (k, v) :: rest, key => if k == key then some v else alGet rest key

/-- Map.set: update in place when present, append when absent
(preserving JS Map iteration order). -/
def alSet {κ α : Type} [BEq κ] : List (κ × α) → κ → α → List (κ × α)
  | [], key, v => [(key, v)]
  | (k, w) :: rest, key, v =>
    if k == key then (k, v) :: rest else (k, w) :: alSet rest key v

/-- Spread of a JS Set built from a list: first occurrence of each
element is kept, later duplicates dropped. -/
def dedupFirstAux (seen : List String) : List String → List String
  | [] => []
  | x :: rest =>
    if seen.contains x then dedupFirstAux seen rest
    else x :: dedupFirstAux (x :: seen) rest

/-- `[...new Set(l)]`. -/
def dedupFirst (l : List String) : List String := dedupFirstAux [] l

/-- Stable insertion keeping `a` before the first element it is not
`ge`-related to; equal elements keep their original relative order. -/
def stableInsertBy {α : Type} (ge : α → α → Bool) (a : α) : List α → List α
  | [] => [a]
  | b :: l => if ge a b then a :: b :: l else b :: stableInsertBy ge a l

/-- Stable sort (models Array.prototype.sort with a comparator, which
is stable): `ge a b` means `a` may stay in front of `b`. -/
def stableSortBy {α : Type} (ge : α → α → Bool) : List α → List α
  | [] => []
  | a :: l => stableInsertBy ge a (stableSortBy ge l)

/-! ## Data model (src/types.ts) -/
/-- JIRA issue record (types.ts). Fields unused by the clustering
engine (description, priority, storyPoints) are kept for completeness. -/
structure JiraIssue where
  key : String
  summary : String
  description : Option String := none
  issueType : String
  status : String
  priority : Option String := none
  epicKey : Option String := none
  epicName : Option String := none
  sprint : Option String := none
  storyPoints : Option Nat := none
  labels : Option (List String) := none
  deriving Repr, DecidableEq

/-- Git commit (types.ts); `timestamp` is Date.getTime() in ms. -/
structure Commit where
  hash : String
  message : String
  author : String
  email : String
  timestamp : Int
  remoteUrl : Option String := none
  filesChanged : Option (List String) := none
  deriving Repr, DecidableEq

/-- GitHub pull request (types.ts); review data is irrelevant here. -/
structure GitHubPR where
  number : Nat
  title : String
  description : String
  state : String
  labels : Option (List String) := none
  deriving Repr, DecidableEq

/-- Output group of the tiered pipeline (grouping.ts CommitGroup). -/
structure CommitGroup where
  groupKey : String
  groupType : String
  groupName : String
  commits : List Commit
  jiraIssues : List JiraIssue
  sprint : Option String := none
  labels : List String
  prNumber : Option Nat := none
  deriving Repr, DecidableEq

/-- A commit left ungrouped, paired with the issues resolved for it. -/
structure UngroupedEntry where
  commit : Commit
  issues : List JiraIssue
  deriving Repr, DecidableEq

/-! ## Similarity utility: calculateFileOverlap (grouping.ts 628-646) -/
/-- Jaccard similarity of two file lists viewed as sets, as in the
source: 0 when either input array is empty, otherwise
intersection-count over union-count (the sets built by `new Set`).
The quotient `intersection / union` is written `mkRat intersection
union`, which is definitionally the same rational (see
`calculateFileOverlap_eq_jaccard`, which restates the value as a
quotient of cardinalities). -/
def calculateFileOverlap (files1 files2 : List String) : ℚ :=
  if files1.length = 0 ∨ files2.length = 0 then 0
  else
    let set1 := files1.dedup
    let set2 := files2.dedup
    let intersection := (set1.filter (fun file => set2.contains file)).length
    let union := set1.length + set2.length - intersection
    if 0 < union then mkRat intersection union else 0

/-! ## AI-assisted clustering post-processor (src/services/ollama.ts 364-549)

The LLM call itself is an external collaborator; the engine's contract
begins once the raw model text is available.  The untrusted parse of
that text (markdown stripping, JSON.parse, field access) is modelled as
a fallible boundary delivering `Option ParsedClustering`: `none` is any
parse failure (malformed JSON or missing required keys), which the
source catches and converts to the all-ungrouped fallback. -/
/-- Sensitivity levels for AI clustering (types.ts ClusteringSensitivity). -/
inductive ClusteringSensitivity
  | strict
  | balanced
  | loose
  deriving Repr, DecidableEq

/-- Per-commit evidence handed to analyzeCommitsForGrouping. -/
structure EvidenceCommit where
  hash : String
  message : String
  filesChanged : List String
  diffSample : String
  deriving Repr, DecidableEq

/-- One commit reference inside a proposed group of the model output:
a 1-based ordinal index plus the model's stated confidence. -/
structure ProposedMember where
  index : Int
  confidence : ℚ
  deriving Repr, DecidableEq

/-- One proposed group in the parsed model output. -/
structure ProposedGroup where
  name : String
  theme : String
  commits : List ProposedMember
  overall_confidence : ℚ
  reasoning : String
  deriving Repr, DecidableEq

/-- The parsed JSON document expected from the model.  The ungrouped
key is optional because the source guards it with a JS default
(parsed.ungrouped or else the empty array). -/
structure ParsedClustering where
  groups : List ProposedGroup
  ungrouped : Option (List Int) := none
  deriving Repr, DecidableEq

/-- One surviving group of the post-processed ClusteringResult. -/
structure ClusteringGroup where
  name : String
  theme : String
  commitHashes : List String
  reasoning : String
  confidence : ℚ
  deriving Repr, DecidableEq

/-- ClusteringResult (types.ts): surviving groups plus ungrouped hashes. -/
structure ClusteringResult where
  groups : List ClusteringGroup
  ungrouped : List String
  deriving Repr, DecidableEq

/-- Threshold pair of a sensitivity policy. -/
structure ConfidenceThresholds where
  perCommit : ℚ
  perGroup : ℚ
  deriving Repr, DecidableEq

/-- Confidence thresholds by sensitivity level (ollama.ts 364-373);
the rationals are 0.90/0.85, 0.80/0.70, 0.60/0.50. -/
def getConfidenceThresholds : ClusteringSensitivity → ConfidenceThresholds
  | .strict => { perCommit := mkRat 90 100, perGroup := mkRat 85 100 }
  | .balanced => { perCommit := mkRat 80 100, perGroup := mkRat 70 100 }
  | .loose => { perCommit := mkRat 60 100, perGroup := mkRat 50 100 }

/-- The source's bound check for a 1-based ordinal:
idx greater or equal 1 and at most commits.length. -/
def validIndex (n : Nat) (idx : Int) : Bool :=
  1 ≤ idx && idx ≤ (n : Int)

/-- commits[idx - 1].hash for a 1-based ordinal; only evaluated under a
validIndex guard in the source, so the default is never reached there. -/
def hashAtIndex (commits : List EvidenceCommit) (idx : Int) : String :=
  match commits[(idx - 1).toNat]? with
  | some c => c.hash
  | none => ""

/-- Body of the confidence-filtering loop over proposed groups
(ollama.ts 493-532), acting on the accumulator
(filteredGroups, allUngrouped). -/
def clusterFilterStep (commits : List EvidenceCommit) (pc pg : ℚ)
    (st : List ClusteringGroup × List String) (group : ProposedGroup) :
    List ClusteringGroup × List String :=
  let n := commits.length
  let confidentCommits := group.commits.filter (fun c => pc ≤ c.confidence)
  let lowConfidenceCommits := group.commits.filter (fun c => c.confidence < pc)
  let ung1 := st.2 ++ (lowConfidenceCommits.filter (fun c => validIndex n c.index)).map
    (fun c => hashAtIndex commits c.index)
  if pg ≤ group.overall_confidence ∧ 2 ≤ confidentCommits.length then
    let commitHashes := (confidentCommits.filter (fun c => validIndex n c.index)).map
      (fun c => hashAtIndex commits c.index)
    if 2 ≤ commitHashes.length then
      (st.1 ++ [{ name := group.name, theme := group.theme,
                  commitHashes := commitHashes, reasoning := group.reasoning,
                  confidence := group.overall_confidence }], ung1)
    else
      (st.1, ung1 ++ commitHashes)
  else
    (st.1, ung1 ++ (confidentCommits.filter (fun c => validIndex n c.index)).map
      (fun c => hashAtIndex commits c.index))

/-- Post-processing of one AI clustering pass (ollama.ts 441-549).
Fewer than 2 commits short-circuits to all-ungrouped; a parse failure
(none) is the catch branch returning the all-ungrouped fallback;
otherwise ordinals of the model's own ungrouped list are translated,
each proposed group is confidence-filtered, and the ungrouped list is
deduplicated as by spreading a JS Set. -/
def analyzeCommitsForGrouping (commits : List EvidenceCommit)
    (parseResult : Option ParsedClustering) (sensitivity : ClusteringSensitivity) :
    ClusteringResult :=
  if commits.length < 2 then { groups := [], ungrouped := commits.map (·.hash) }
  else
    match parseResult with
    | none => { groups := [], ungrouped := commits.map (·.hash) }
    | some parsed =>
      let thresholds := getConfidenceThresholds sensitivity
      let n := commits.length
      let allUngrouped := ((parsed.ungrouped.getD []).filter (fun idx => validIndex n idx)).map
        (fun idx => hashAtIndex commits idx)
      let res := parsed.groups.foldl
        (clusterFilterStep commits thresholds.perCommit thresholds.perGroup) ([], allUngrouped)
      { groups := res.1, ungrouped := dedupFirst res.2 }

/-! ### Characterization of the confidence filter -/
/-- Members of a proposed group meeting the per-commit threshold. -/
def confidentOf (pc : ℚ) (g : ProposedGroup) : List ProposedMember :=
  g.commits.filter (fun c => pc ≤ c.confidence)

/-- Confident members whose ordinal is in range: the members that
remain after per-commit eviction (out-of-range ordinals are dropped
silently and reference no commit). -/
def validConfident (n : Nat) (pc : ℚ) (g : ProposedGroup) : List ProposedMember :=
  (confidentOf pc g).filter (fun c => validIndex n c.index)

/-- Hashes of the members remaining after per-commit eviction. -/
def keptHashes (commits : List EvidenceCommit) (pc : ℚ) (g : ProposedGroup) : List String :=
  (validConfident commits.length pc g).map (fun c => hashAtIndex commits c.index)

/-- A proposed group survives iff its stated overall confidence meets
the per-group threshold and at least 2 members remain after per-commit
eviction. -/
def keptCond (commits : List EvidenceCommit) (pc pg : ℚ) (g : ProposedGroup) : Bool :=
  decide (pg ≤ g.overall_confidence) && decide (2 ≤ (validConfident commits.length pc g).length)

/-- The surviving group built from a kept proposed group. -/
def mkKeptGroup (commits : List EvidenceCommit) (pc : ℚ) (g : ProposedGroup) :
    ClusteringGroup :=
  { name := g.name, theme := g.theme, commitHashes := keptHashes commits pc g,
    reasoning := g.reasoning, confidence := g.overall_confidence }

/-- Hashes a proposed group contributes to the ungrouped set: its
valid low-confidence members, plus every remaining member when the
group dissolves. -/
def evictedHashes (commits : List EvidenceCommit) (pc pg : ℚ) (g : ProposedGroup) :
    List String :=
  ((g.commits.filter (fun c => c.confidence < pc)).filter
      (fun c => validIndex commits.length c.index)).map (fun c => hashAtIndex commits c.index)
    ++ (if keptCond commits pc pg g then [] else keptHashes commits pc g)

/-- The in-range ordinals of the model's own ungrouped list, translated
to hashes. -/
def baseUngrouped (commits : List EvidenceCommit) (parsed : ParsedClustering) : List String :=
  ((parsed.ungrouped.getD []).filter (fun idx => validIndex commits.length idx)).map
    (fun idx => hashAtIndex commits idx)

/-- The union of the commit hashes retained in some surviving group. -/
def retainedHashes (commits : List EvidenceCommit)
    (parseResult : Option ParsedClustering) (s : ClusteringSensitivity) : List String :=
  ((analyzeCommitsForGrouping commits parseResult s).groups.map
    (fun g => g.commitHashes)).flatten

/-- All ordinal references appearing anywhere in the parsed model
output: the members of every proposed group followed by the model's
own ungrouped list. -/
def allModelIndices (parsed : ParsedClustering) : List Int :=
  (parsed.groups.flatMap (fun g => g.commits.map (fun c => c.index)))
    ++ parsed.ungrouped.getD []

/-- Concrete two-commit evidence batch used in concrete evaluations. -/
def twoCommits : List EvidenceCommit :=
  [{ hash := "h1", message := "m1", filesChanged := [], diffSample := "" },
   { hash := "h2", message := "m2", filesChanged := [], diffSample := "" }]

/-- Model output proposing one high-confidence group over both commits
while also listing commit 1 in its own ungrouped list. -/
def doubledParsed : ParsedClustering :=
  { groups := [{ name := "g", theme := "other",
                 commits := [{ index := 1, confidence := mkRat 95 100 },
                             { index := 2, confidence := mkRat 95 100 }],
                 overall_confidence := mkRat 90 100, reasoning := "r" }],
    ungrouped := some [1] }

/-- Model output referencing each of the two commits exactly once. -/
def uniqueParsed : ParsedClustering :=
  { groups := [{ name := "g", theme := "other",
                 commits := [{ index := 1, confidence := mkRat 95 100 },
                             { index := 2, confidence := mkRat 95 100 }],
                 overall_confidence := mkRat 90 100, reasoning := "r" }],
    ungrouped := some [] }

/-- Model output with one member below the balanced per-commit
threshold inside an otherwise confident group. -/
def lowMemberParsed : ParsedClustering :=
  { groups := [{ name := "g", theme := "other",
                 commits := [{ index := 1, confidence := mkRat 50 100 },
                             { index := 2, confidence := mkRat 95 100 }],
                 overall_confidence := mkRat 72 100, reasoning := "r" }],
    ungrouped := some [] }

/-- Number of members of a proposed group referencing ordinal i that
survive per-commit eviction. -/
def survCount (commits : List EvidenceCommit) (pc : ℚ) (i : Int) (g : ProposedGroup) : Nat :=
  (validConfident commits.length pc g).countP (fun m => decide (m.index = i))

/-- Number of valid low-confidence members of a proposed group
referencing ordinal i. -/
def lowCount (commits : List EvidenceCommit) (pc : ℚ) (i : Int) (g : ProposedGroup) : Nat :=
  ((g.commits.filter (fun m => m.confidence < pc)).filter
    (fun m => validIndex commits.length m.index)).countP (fun m => decide (m.index = i))

/-- Number of member references to ordinal i in a proposed group. -/
def refCount (i : Int) (g : ProposedGroup) : Nat :=
  (g.commits.map (fun m => m.index)).count i

/-! ## JIRA key extraction

The source matches commit messages against the regex
\b([A-Z][A-Z0-9]+-\d+)\b with the g and i flags.  The scanner below
reproduces the JS matching semantics: at each position, a match
requires a word boundary (the previous character is not a word
character), an ASCII letter, at least one more letter or digit (the
greedy run needs no backtracking because the next pattern character,
the hyphen, is not a letter or digit), a hyphen, at least one digit
(maximal, because a shorter run would leave a digit, which is a word
character, violating the trailing boundary), and a trailing word
boundary.  On failure the scan advances one character; on success it
resumes after the match (lastIndex semantics). -/
/-- JS regex word character: [A-Za-z0-9_]. -/
def isWordChar (c : Char) : Bool := c.isAlpha || c.isDigit || c == '_'

/-- [A-Z] under the i flag. -/
def isKeyLetter (c : Char) : Bool := c.isUpper || c.isLower

/-- [A-Z0-9] under the i flag. -/
def isKeyAlnum (c : Char) : Bool := isKeyLetter c || c.isDigit

/-- Try to match the key pattern at the head of l; prevIsWord says
whether the preceding character was a word character.  Returns the
matched characters and the remaining input. -/
def matchKeyHere (prevIsWord : Bool) (l : List Char) : Option (List Char × List Char) :=
  if prevIsWord then none
  else
    match l with
    | [] => none
    | c :: rest =>
      if isKeyLetter c then
        let run := rest.takeWhile isKeyAlnum
        let rest1 := rest.dropWhile isKeyAlnum
        if 1 ≤ run.length then
          match rest1 with
          | '-' :: rest2 =>
            let digits := rest2.takeWhile Char.isDigit
            let rest3 := rest2.dropWhile Char.isDigit
            if 1 ≤ digits.length then
              match rest3 with
              | [] => some (c :: run ++ '-' :: digits, [])
              | d :: _ =>
                if isWordChar d then none
                else some (c :: run ++ '-' :: digits, rest3)
            else none
          | _ => none
        else none
      else none

/-- Left-to-right global scan; the fuel (one unit per position) equals
the character count, and every step consumes at least one character,
so the scan never runs out. -/
def scanJiraKeys : Nat → Bool → List Char → List String
  | 0, _, _ => []
  | _ + 1, _, [] => []
  | fuel + 1, prevW, c :: rest =>
    match matchKeyHere prevW (c :: rest) with
    | some (m, rest1) => String.mk m :: scanJiraKeys fuel true rest1
    | none => scanJiraKeys fuel (isWordChar c) rest

/-- message.match(JIRA_KEY_REGEX): the matched substrings, empty when
the JS call returns null. -/
def jsMatchJiraKeys (message : String) : List String :=
  scanJiraKeys message.data.length false message.data

/-! ## Tier 2: groupCommitsByFeature (grouping.ts 364-476) -/
/-- Result type of the epic tier. -/
structure FeatureResult where
  groups : List CommitGroup
  ungroupedCommits : List UngroupedEntry
  deriving Repr, DecidableEq

/-- JS String.prototype.toUpperCase, character by character (the match
strings fed to it are ASCII, where this is exact).  Written over the
character list so that it evaluates by rfl. -/
def jsToUpper (s : String) : String :=
  String.mk (s.data.map Char.toUpper)

/-- One iteration of the issue-collection loop over the regex matches
of one commit (grouping.ts 393-410): push each resolved issue, and
remember the first truthy epic key with its display name. -/
def collectIssueStep (jiraCache : List (String × JiraIssue))
    (st : List JiraIssue × Option String × String) (m : String) :
    List JiraIssue × Option String × String :=
  match alGet jiraCache (jsToUpper m) with
  | some issue =>
    let issues := st.1 ++ [issue]
    if strTruthy issue.epicKey && st.2.1.isNone then
      (issues, issue.epicKey, jsOrOpt issue.epicName (issue.epicKey.getD ""))
    else
      (issues, st.2.1, st.2.2)
  | none => st

/-- Issues, first epic key and epic name resolved for one commit. -/
def commitSignals (jiraCache : List (String × JiraIssue)) (message : String) :
    List JiraIssue × Option String × String :=
  (jsMatchJiraKeys message).foldl (collectIssueStep jiraCache) ([], none, "")

/-- First pass of groupCommitsByFeature (grouping.ts 372-388):
epic key to epic display name, needed only for override targets. -/
def buildEpicInfo (jiraCache : List (String × JiraIssue)) (commits : List Commit) :
    List (String × String) :=
  commits.foldl (fun epicInfo commit =>
    (jsMatchJiraKeys commit.message).foldl (fun epicInfo m =>
      match alGet jiraCache (jsToUpper m) with
      | some issue =>
        match issue.epicKey with
        | some ek =>
          if ek != "" && (alGet epicInfo ek).isNone then
            epicInfo ++ [(ek, jsOrOpt issue.epicName ek)]
          else epicInfo
        | none => epicInfo
      | none => epicInfo) epicInfo) []

/-- Push the issues of a commit that are not yet present (by key). -/
def addUniqueIssues (cur add : List JiraIssue) : List JiraIssue :=
  add.foldl (fun acc issue =>
    if (acc.find? (fun i => i.key == issue.key)).isSome then acc
    else acc ++ [issue]) cur

/-- Merge the labels of the issues into the accumulated label list. -/
def mergeLabels (cur : List String) (issues : List JiraIssue) : List String :=
  issues.foldl (fun acc issue =>
    (issue.labels.getD []).foldl (fun acc2 label =>
      if acc2.contains label then acc2 else acc2 ++ [label]) acc) cur

/-- Place a commit into the epic map or the ungrouped list
(grouping.ts 426-467). -/
def placeInEpic (st : List (String × CommitGroup) × List UngroupedEntry)
    (commit : Commit) (commitIssues : List JiraIssue)
    (epicKey : Option String) (epicName : String) :
    List (String × CommitGroup) × List UngroupedEntry :=
  if strTruthy epicKey then
    let key := epicKey.getD ""
    match alGet st.1 key with
    | some group =>
      (alSet st.1 key
        { group with
          commits := group.commits ++ [commit],
          jiraIssues := addUniqueIssues group.jiraIssues commitIssues,
          labels := mergeLabels group.labels commitIssues }, st.2)
    | none =>
      (alSet st.1 key
        { groupKey := key, groupType := "epic", groupName := epicName,
          commits := [commit], jiraIssues := commitIssues,
          sprint := (commitIssues.head?).bind (fun i => i.sprint),
          labels := mergeLabels [] commitIssues }, st.2)
  else
    (st.1, st.2 ++ [{ commit := commit, issues := commitIssues }])

/-- Main loop body of groupCommitsByFeature for one commit, including
the per-commit override handling (grouping.ts 390-468). -/
def featureStep (jiraCache : List (String × JiraIssue)) (epicInfo : List (String × String))
    (groupOverrides : Option (List (String × Option String)))
    (st : List (String × CommitGroup) × List UngroupedEntry) (commit : Commit) :
    List (String × CommitGroup) × List UngroupedEntry :=
  let signals := commitSignals jiraCache commit.message
  let commitIssues := signals.1
  match (match groupOverrides with
         | some m => alGet m commit.hash
         | none => none) with
  | some none =>
    (st.1, st.2 ++ [{ commit := commit, issues := commitIssues }])
  | some (some overrideKey) =>
    placeInEpic st commit commitIssues (some overrideKey)
      (jsOrOpt (alGet epicInfo overrideKey) overrideKey)
  | none =>
    placeInEpic st commit commitIssues signals.2.1 signals.2.2

/-- Sort groups by commit count, descending, stable. -/
def sortByCommitCountDesc (groups : List CommitGroup) : List CommitGroup :=
  stableSortBy (fun a b => decide (b.commits.length ≤ a.commits.length)) groups

/-- Tier 2: group commits by epic (grouping.ts 364-476). -/
def groupCommitsByFeature (commits : List Commit) (jiraCache : List (String × JiraIssue))
    (groupOverrides : Option (List (String × Option String))) : FeatureResult :=
  let epicInfo := buildEpicInfo jiraCache commits
  let res := commits.foldl (featureStep jiraCache epicInfo groupOverrides) ([], [])
  { groups := sortByCommitCountDesc (res.1.map (fun kv => kv.2)),
    ungroupedCommits := res.2 }

/-! ## Tier 1: groupByPR (grouping.ts 482-525) -/
/-- Result type of the PR tier. -/
structure PRResult where
  groups : List CommitGroup
  ungrouped : List Commit
  deriving Repr, DecidableEq

/-- First loop of groupByPR: bucket commits by PR number, keeping the
first PR object seen for the number; commits without a PR fall to
ungrouped. -/
def prStep (prCache : List (String × GitHubPR))
    (st : List (Nat × GitHubPR × List Commit) × List Commit) (commit : Commit) :
    List (Nat × GitHubPR × List Commit) × List Commit :=
  match alGet prCache commit.hash with
  | some pr =>
    match alGet st.1 pr.number with
    | some entry => (alSet st.1 pr.number (entry.1, entry.2 ++ [commit]), st.2)
    | none => (st.1 ++ [(pr.number, pr, [commit])], st.2)
  | none => (st.1, st.2 ++ [commit])

/-- Second loop of groupByPR (502-519): buckets of 2 or more commits
become pr groups, singleton buckets fall to ungrouped. -/
def prBucketStep (st : List CommitGroup × List Commit)
    (bucket : Nat × GitHubPR × List Commit) : List CommitGroup × List Commit :=
  if 2 ≤ bucket.2.2.length then
    (st.1 ++ [{ groupKey := "PR-" ++ toString bucket.1, groupType := "pr",
                groupName := bucket.2.1.title, commits := bucket.2.2,
                jiraIssues := [], labels := bucket.2.1.labels.getD [],
                prNumber := some bucket.1 }], st.2)
  else
    (st.1, st.2 ++ bucket.2.2)

/-- Tier 1: group commits by PR (grouping.ts 482-525). -/
def groupByPR (commits : List Commit) (prCache : List (String × GitHubPR)) : PRResult :=
  let pass1 := commits.foldl (prStep prCache) ([], [])
  let pass2 := pass1.1.foldl prBucketStep ([], pass1.2)
  { groups := sortByCommitCountDesc pass2.1, ungrouped := pass2.2 }

/-! ## Tier 3: groupBySprintAndTime (grouping.ts 531-622) -/
/-- Result type of the sprint tier. -/
structure SprintResult where
  groups : List CommitGroup
  ungrouped : List UngroupedEntry
  deriving Repr, DecidableEq

/-- Bucket an entry by its first issue's truthy sprint label; entries
without a sprint go straight to the no-sprint list. -/
def sprintBucketStep (st : List (String × List UngroupedEntry) × List UngroupedEntry)
    (item : UngroupedEntry) :
    List (String × List UngroupedEntry) × List UngroupedEntry :=
  let sprint := (item.issues.head?).bind (fun i => i.sprint)
  if strTruthy sprint then
    let key := sprint.getD ""
    match alGet st.1 key with
    | some bucket => (alSet st.1 key (bucket ++ [item]), st.2)
    | none => (st.1 ++ [(key, [item])], st.2)
  else
    (st.1, st.2 ++ [item])

/-- Clustering loop over timestamp-sorted entries (569-583): extend
the current cluster while the gap to the previous entry is at most the
window, else start a new cluster. -/
def timeClusterLoop (timeWindowMs : Int) :
    List UngroupedEntry → List UngroupedEntry → Int → List (List UngroupedEntry)
  | [], currentCluster, _ => [currentCluster]
  | item :: rest, currentCluster, prevTime =>
    if item.commit.timestamp - prevTime ≤ timeWindowMs then
      timeClusterLoop timeWindowMs rest (currentCluster ++ [item]) item.commit.timestamp
    else
      currentCluster :: timeClusterLoop timeWindowMs rest [item] item.commit.timestamp

/-- Clusters of a sorted sprint bucket; the empty case is unreachable
because buckets reaching it have at least 2 entries. -/
def timeClusters (timeWindowMs : Int) : List UngroupedEntry → List (List UngroupedEntry)
  | [] => []
  | first :: rest => timeClusterLoop timeWindowMs rest [first] first.commit.timestamp

/-- Issue deduplication (by key) and label union over one cluster
(grouping.ts 588-602). -/
def clusterIssuesLabels (cluster : List UngroupedEntry) : List JiraIssue × List String :=
  cluster.foldl (fun st item =>
    item.issues.foldl (fun st2 issue =>
      let allIssues := if (st2.1.find? (fun i => i.key == issue.key)).isSome
        then st2.1 else st2.1 ++ [issue]
      let allLabels := (issue.labels.getD []).foldl (fun acc label =>
        if acc.contains label then acc else acc ++ [label]) st2.2
      (allIssues, allLabels)) st) ([], [])

/-- Convert one time cluster to a sprint group when it has at least 2
entries, else spill it to ungrouped (585-616). -/
def sprintClusterStep (sprint : String) (st : List CommitGroup × List UngroupedEntry)
    (cluster : List UngroupedEntry) : List CommitGroup × List UngroupedEntry :=
  if 2 ≤ cluster.length then
    let il := clusterIssuesLabels cluster
    (st.1 ++ [{ groupKey := "sprint-" ++ sprint, groupType := "sprint",
                groupName := "Sprint: " ++ sprint,
                commits := cluster.map (fun c => c.commit),
                jiraIssues := il.1, sprint := some sprint, labels := il.2 }], st.2)
  else
    (st.1, st.2 ++ cluster)

/-- Process one sprint bucket: small buckets spill to ungrouped,
larger ones are sorted by timestamp (stable ascending) and clustered
by time proximity. -/
def sprintBucketProcess (timeWindowMs : Int) (st : List CommitGroup × List UngroupedEntry)
    (bucket : String × List UngroupedEntry) : List CommitGroup × List UngroupedEntry :=
  if bucket.2.length < 2 then
    (st.1, st.2 ++ bucket.2)
  else
    let sorted := stableSortBy
      (fun a b => decide (a.commit.timestamp ≤ b.commit.timestamp)) bucket.2
    (timeClusters timeWindowMs sorted).foldl (sprintClusterStep bucket.1) st

/-- Tier 3: group by sprint plus time proximity (grouping.ts 531-622). -/
def groupBySprintAndTime (commits : List UngroupedEntry) (timeWindowDays : Int) :
    SprintResult :=
  let pass1 := commits.foldl sprintBucketStep ([], [])
  let timeWindowMs := timeWindowDays * 24 * 60 * 60 * 1000
  let res := pass1.1.foldl (sprintBucketProcess timeWindowMs) ([], pass1.2)
  { groups := sortByCommitCountDesc res.1, ungrouped := res.2 }

/-! ## Tier 4: groupByFileOverlap (grouping.ts 652-734) -/
/-- Result type of the file-overlap tier. -/
structure FileOverlapResult where
  groups : List CommitGroup
  ungrouped : List Commit
  deriving Repr, DecidableEq

/-- commits[i].filesChanged or else the empty list. -/
def filesAt (commits : List Commit) (i : Nat) : List String :=
  match commits[i]? with
  | some c => c.filesChanged.getD []
  | none => []

/-- commits[i]; the BFS only produces in-range indices, so the default
is never reached from the pipeline. -/
def commitAt (commits : List Commit) (i : Nat) : Commit :=
  match commits[i]? with
  | some c => c
  | none => { hash := "", message := "", author := "", email := "", timestamp := 0 }

/-- Adjacency list of index i (grouping.ts 661-677): every j distinct
from i whose file overlap with i meets the threshold. -/
def overlapNeighbors (commits : List Commit) (overlapThreshold : ℚ) (i : Nat) :
    List Nat :=
  (List.range commits.length).filter (fun j =>
    (j != i) && decide (overlapThreshold
      ≤ calculateFileOverlap (filesAt commits i) (filesAt commits j)))

/-- The BFS worklist loop (grouping.ts 689-701), fuelled: each
iteration pops one queue entry, and either skips it (already visited)
or marks it and enqueues its unvisited neighbors.  The fuel chosen at
the call site, (n+2)^2, exceeds the maximal number of iterations: at
most n marking steps, each enqueueing at most n entries, plus the
initial entry, can put no more than n^2 + 1 entries through the queue.
Returns the visited set and the cluster in marking order. -/
def bfsAux (adj : Nat → List Nat) :
    Nat → List Nat → List Nat → List Nat → List Nat × List Nat
  | 0, visited, _, cluster => (visited, cluster)
  | _ + 1, visited, [], cluster => (visited, cluster)
  | fuel + 1, visited, node :: queue, cluster =>
    if visited.contains node then
      bfsAux adj fuel visited queue cluster
    else
      let visited1 := visited ++ [node]
      let cluster1 := cluster ++ [node]
      let queue1 := queue ++ (adj node).filter (fun nb => !(visited1.contains nb))
      bfsAux adj fuel visited1 queue1 cluster1

/-- Connected components by BFS from each unvisited index in order
(grouping.ts 679-704). -/
def connectedComponents (commits : List Commit) (overlapThreshold : ℚ) :
    List (List Nat) :=
  let n := commits.length
  let adj := overlapNeighbors commits overlapThreshold
  ((List.range n).foldl (fun (st : List Nat × List (List Nat)) i =>
    if st.1.contains i then st
    else
      let res := bfsAux adj ((n + 2) * (n + 2)) st.1 [i] []
      (res.1, st.2 ++ [res.2])) ([], [])).2

/-- The loop of findCommonDirectory (grouping.ts 745-753): walk
segment positions from i for at most the given number of steps,
collecting while all paths agree, stopping at the first disagreement. -/
def commonDirParts (parts : List (List String)) (p0 : List String) :
    Nat → Nat → List String
  | _, 0 => []
  | i, steps + 1 =>
    match p0[i]? with
    | some part =>
      if parts.all (fun p => p[i]? == some part) then
        part :: commonDirParts parts p0 (i + 1) steps
      else []
    | none => []

/-- Longest common leading directory of a set of file paths
(grouping.ts 739-756); the loop runs for minLen - 1 positions. -/
def findCommonDirectory (files : List String) : String :=
  match files.map (fun f => f.splitOn "/") with
  | [] => ""
  | p0 :: rest =>
    let minLen := rest.foldl (fun m p => min m p.length) p0.length
    String.intercalate "/" (commonDirParts (p0 :: rest) p0 0 (minLen - 1))

/-- Convert one component to a file-overlap group when it has at least
2 indices, else spill its single commit to ungrouped (710-729). -/
def fileClusterStep (commits : List Commit) (st : List CommitGroup × List Commit)
    (cluster : List Nat) : List CommitGroup × List Commit :=
  if 2 ≤ cluster.length then
    let clusterCommits := cluster.map (commitAt commits)
    let allFiles := clusterCommits.flatMap (fun c => c.filesChanged.getD [])
    let commonDir := findCommonDirectory allFiles
    (st.1 ++ [{ groupKey := "files-" ++ (jsOr commonDir "mixed"),
                groupType := "file-overlap",
                groupName := if commonDir != "" then "Changes in " ++ commonDir
                  else "Related file changes",
                commits := clusterCommits, jiraIssues := [], labels := [] }], st.2)
  else
    match cluster with
    | [] => st
    | i :: _ => (st.1, st.2 ++ [commitAt commits i])

/-- Tier 4: group by file overlap (grouping.ts 652-734). -/
def groupByFileOverlap (commits : List Commit) (overlapThreshold : ℚ) :
    FileOverlapResult :=
  if commits.length < 2 then { groups := [], ungrouped := commits }
  else
    let clusters := connectedComponents commits overlapThreshold
    let res := clusters.foldl (fileClusterStep commits) ([], [])
    { groups := sortByCommitCountDesc res.1, ungrouped := res.2 }

/-! ## The full pipeline: groupCommitsMultiSignal (grouping.ts 762-807) -/
/-- Result type of the full pipeline. -/
structure MultiSignalResult where
  groups : List CommitGroup
  ungroupedCommits : List UngroupedEntry
  deriving Repr, DecidableEq

/-- Tiered multi-signal grouping: PR, then epic, then sprint plus
time, then file overlap; the source defaults are timeWindowDays 7 and
overlapThreshold 0.5. -/
def groupCommitsMultiSignal (commits : List Commit)
    (jiraCache : List (String × JiraIssue)) (prCache : List (String × GitHubPR))
    (timeWindowDays : Int) (overlapThreshold : ℚ) : MultiSignalResult :=
  let tier1 := if 0 < prCache.length then groupByPR commits prCache
    else { groups := [], ungrouped := commits }
  let feat := groupCommitsByFeature tier1.ungrouped jiraCache none
  let sprint := groupBySprintAndTime feat.ungroupedCommits timeWindowDays
  let commitsForFileGrouping := sprint.ungrouped.map (fun u => u.commit)
  let file := groupByFileOverlap commitsForFileGrouping overlapThreshold
  let finalUngrouped := file.ungrouped.map (fun commit =>
    match sprint.ungrouped.find? (fun u => u.commit.hash == commit.hash) with
    | some original => { commit := commit, issues := original.issues }
    | none => { commit := commit, issues := [] })
  { groups := tier1.groups ++ feat.groups ++ sprint.groups ++ file.groups,
    ungroupedCommits := finalUngrouped }

/-- Flattened state of the first groupByPR loop. -/
def prPass1Total (st : List (Nat × GitHubPR × List Commit) × List Commit) : List Commit :=
  st.1.flatMap (fun b => b.2.2) ++ st.2

/-- Flattened state of the second groupByPR loop and of the cluster
conversion loops of the sprint and file tiers. -/
def groupsTotal (st : List CommitGroup × List Commit) : List Commit :=
  st.1.flatMap (fun g => g.commits) ++ st.2

/-- Flattened state of the epic-tier loop. -/
def featureTotal (st : List (String × CommitGroup) × List UngroupedEntry) : List Commit :=
  st.1.flatMap (fun kv => kv.2.commits) ++ st.2.map (fun u => u.commit)

/-- Flattened state of the sprint-bucketing loop. -/
def sprintPass1Total (st : List (String × List UngroupedEntry) × List UngroupedEntry) :
    List UngroupedEntry :=
  st.1.flatMap (fun kv => kv.2) ++ st.2

/-- Flattened, commit-level state of the sprint cluster loop. -/
def sprintGroupsTotal (st : List CommitGroup × List UngroupedEntry) : List Commit :=
  st.1.flatMap (fun g => g.commits) ++ st.2.map (fun u => u.commit)

/-- The loop body of the component extraction (grouping.ts 683-704). -/
def componentStep (adj : Nat → List Nat) (F : Nat)
    (st : List Nat × List (List Nat)) (i : Nat) : List Nat × List (List Nat) :=
  if st.1.contains i then st
  else
    let r := bfsAux adj F st.1 [i] []
    (r.1, st.2 ++ [r.2])

/-- The pr group built from one bucket. -/
def mkPRGroup (b : Nat × GitHubPR × List Commit) : CommitGroup :=
  { groupKey := "PR-" ++ toString b.1, groupType := "pr", groupName := b.2.1.title,
    commits := b.2.2, jiraIssues := [], labels := b.2.1.labels.getD [],
    prNumber := some b.1 }

/-- Invariant of the epic map of groupCommitsByFeature: keys are
pairwise distinct, every stored group carries its own key as groupKey
and has type epic. -/
def featureMapInv (st : List (String × CommitGroup) × List UngroupedEntry) : Prop :=
  ((st.1.map (fun kv => kv.1)).Nodup)
  ∧ ∀ kv ∈ st.1, kv.2.groupKey = kv.1 ∧ kv.2.groupType = "epic"

/-- The PR stage of the pipeline, skipped on an empty PR table. -/
def msTier1 (commits : List Commit) (prCache : List (String × GitHubPR)) : PRResult :=
  if 0 < prCache.length then groupByPR commits prCache
  else { groups := [], ungrouped := commits }

/-- The epic stage of the pipeline, on the PR stage's remainder. -/
def msFeat (commits : List Commit) (jiraCache : List (String × JiraIssue))
    (prCache : List (String × GitHubPR)) : FeatureResult :=
  groupCommitsByFeature (msTier1 commits prCache).ungrouped jiraCache none

/-- The sprint stage of the pipeline, on the epic stage's remainder. -/
def msSprint (commits : List Commit) (jiraCache : List (String × JiraIssue))
    (prCache : List (String × GitHubPR)) (tw : Int) : SprintResult :=
  groupBySprintAndTime (msFeat commits jiraCache prCache).ungroupedCommits tw

/-- The file-overlap stage of the pipeline, on the sprint stage's remainder. -/
def msFile (commits : List Commit) (jiraCache : List (String × JiraIssue))
    (prCache : List (String × GitHubPR)) (tw : Int) (τ : ℚ) : FileOverlapResult :=
  groupByFileOverlap
    ((msSprint commits jiraCache prCache tw).ungrouped.map (fun u => u.commit)) τ

/-! ### Characterization of the PR tier's buckets -/
/-- The PR number the PR table assigns to a commit, if any. -/
def prNumOf (prCache : List (String × GitHubPR)) (d : Commit) : Option Nat :=
  (alGet prCache d.hash).map (fun p => p.number)

/-- Invariant of the PR bucketing loop after processing `done`: each
bucket holds exactly the processed commits mapped to its number, in
input order; bucket numbers are pairwise distinct; a number has a
bucket iff some processed commit maps to it. -/
def prPass1Inv (prCache : List (String × GitHubPR))
    (st : List (Nat × GitHubPR × List Commit) × List Commit)
    (done : List Commit) : Prop :=
  (∀ b ∈ st.1, b.2.2 = done.filter (fun d => prNumOf prCache d == some b.1))
  ∧ ((st.1.map (fun b => b.1)).Nodup)
  ∧ (∀ num, (alGet st.1 num).isSome ↔ ∃ d ∈ done, prNumOf prCache d = some num)

/-! ### Counting lemmas for calculateFileOverlap -/
lemma overlap_inter_count (X Y : List String) :
    (X.dedup.filter (fun f => Y.dedup.contains f)).length
      = (X.toFinset ∩ Y.toFinset).card := by
  have hnd : (X.dedup.filter (fun f => Y.dedup.contains f)).Nodup :=
    X.nodup_dedup.filter _
  have h1 : (X.dedup.filter (fun f => Y.dedup.contains f)).toFinset.card
      = (X.dedup.filter (fun f => Y.dedup.contains f)).length :=
    List.toFinset_card_of_nodup hnd
  rw [← h1, List.toFinset_filter]
  congr 1
  have hdt : X.dedup.toFinset = X.toFinset := by
    ext a; simp [List.mem_toFinset, List.mem_dedup]
  rw [hdt]
  have hc : ∀ f : String, (Y.dedup.contains f) = decide (f ∈ Y.toFinset) := by
    intro f
    simp [List.mem_toFinset, List.elem_iff]
  simp only [hc]
  ext a
  simp [Finset.mem_filter, Finset.mem_inter]

lemma overlap_union_count (X Y : List String) :
    X.dedup.length + Y.dedup.length
        - (X.dedup.filter (fun f => Y.dedup.contains f)).length
      = (X.toFinset ∪ Y.toFinset).card := by
  have h := Finset.card_union_add_card_inter X.toFinset Y.toFinset
  have hx : X.toFinset.card = X.dedup.length := List.card_toFinset X
  have hy : Y.toFinset.card = Y.dedup.length := List.card_toFinset Y
  have hi := overlap_inter_count X Y
  omega

lemma calculateFileOverlap_jaccard (X Y : List String) :
    calculateFileOverlap X Y =
      ((X.toFinset ∩ Y.toFinset).card : ℚ) / ((X.toFinset ∪ Y.toFinset).card : ℚ) := by
  unfold calculateFileOverlap
  by_cases hx : X.length = 0
  · have hX : X = [] := List.length_eq_zero.mp hx
    subst hX
    rw [if_pos (show ([] : List String).length = 0 ∨ Y.length = 0 from Or.inl rfl),
      List.toFinset_nil, Finset.empty_inter, Finset.card_empty, Nat.cast_zero, zero_div]
  · by_cases hy : Y.length = 0
    · have hY : Y = [] := List.length_eq_zero.mp hy
      subst hY
      rw [if_pos (show X.length = 0 ∨ ([] : List String).length = 0 from Or.inr rfl),
        List.toFinset_nil, Finset.inter_empty, Finset.card_empty, Nat.cast_zero, zero_div]
    · rw [if_neg (by omega)]
      have hinter := overlap_inter_count X Y
      have hunion := overlap_union_count X Y
      rw [hinter] at hunion
      show (if 0 < X.dedup.length + Y.dedup.length
              - (X.dedup.filter (fun f => Y.dedup.contains f)).length then
          mkRat ((X.dedup.filter (fun f => Y.dedup.contains f)).length : Int)
            (X.dedup.length + Y.dedup.length
              - (X.dedup.filter (fun f => Y.dedup.contains f)).length)
        else 0) = _
      rw [hinter, hunion]
      have hpos : 0 < (X.toFinset ∪ Y.toFinset).card := by
        have hne : X.toFinset.Nonempty := by
          rcases X with _ | ⟨a, rest⟩
          · simp at hx
          · exact ⟨a, by simp⟩
        rcases hne with ⟨a, ha⟩
        exact Finset.card_pos.mpr ⟨a, Finset.mem_union_left _ ha⟩
      rw [if_pos hpos, Rat.mkRat_eq_div, Int.cast_natCast]

/-- Claim C8: calculateFileOverlap returns the Jaccard similarity of its
two file lists viewed as sets; it returns 0 whenever either list is
empty; it is symmetric; self-overlap of a non-empty list is 1; and on
the lists a,b and b,c it returns exactly one third. -/
theorem C8_calculateFileOverlap_props :
    (∀ X Y : List String, calculateFileOverlap X Y =
      ((X.toFinset ∩ Y.toFinset).card : ℚ) / ((X.toFinset ∪ Y.toFinset).card : ℚ)) ∧
    (∀ Y : List String, calculateFileOverlap [] Y = 0 ∧ calculateFileOverlap Y [] = 0) ∧
    (∀ X Y : List String, calculateFileOverlap X Y = calculateFileOverlap Y X) ∧
    (∀ X : List String, X ≠ [] → calculateFileOverlap X X = 1) ∧
    calculateFileOverlap ["a", "b"] ["b", "c"] = 1 / 3 := by
  refine ⟨calculateFileOverlap_jaccard, ?_, ?_, ?_, ?_⟩
  · intro Y
    refine ⟨?_, ?_⟩
    · rw [calculateFileOverlap_jaccard]
      rw [List.toFinset_nil, Finset.empty_inter, Finset.card_empty, Nat.cast_zero, zero_div]
    · rw [calculateFileOverlap_jaccard]
      rw [List.toFinset_nil, Finset.inter_empty, Finset.card_empty, Nat.cast_zero, zero_div]
  · intro X Y
    rw [calculateFileOverlap_jaccard, calculateFileOverlap_jaccard,
      Finset.inter_comm, Finset.union_comm]
  · intro X hX
    rw [calculateFileOverlap_jaccard, Finset.inter_self, Finset.union_self]
    have hne : X.toFinset.Nonempty := by
      rcases X with _ | ⟨a, rest⟩
      · exact absurd rfl hX
      · exact ⟨a, by simp⟩
    have hcard : 0 < X.toFinset.card := Finset.card_pos.mpr hne
    have hz : (X.toFinset.card : ℚ) ≠ 0 := by
      exact_mod_cast Nat.pos_iff_ne_zero.mp hcard
    exact div_self hz
  · have h13 : calculateFileOverlap ["a", "b"] ["b", "c"] = mkRat 1 3 := by decide
    rw [h13, Rat.mkRat_eq_div]
    norm_num

/-- Witness for C8: the self-overlap conjunct applied to the concrete
non-empty list containing x alone. -/
theorem C8_witness : calculateFileOverlap ["x"] ["x"] = 1 :=
  C8_calculateFileOverlap_props.2.2.2.1 ["x"] (by decide)

lemma keptCond_iff (commits : List EvidenceCommit) (pc pg : ℚ) (g : ProposedGroup) :
    keptCond commits pc pg g = true ↔
      pg ≤ g.overall_confidence ∧ 2 ≤ (validConfident commits.length pc g).length := by
  unfold keptCond
  simp

lemma clusterFilterStep_eq (commits : List EvidenceCommit) (pc pg : ℚ)
    (st : List ClusteringGroup × List String) (g : ProposedGroup) :
    clusterFilterStep commits pc pg st g =
      (st.1 ++ (if keptCond commits pc pg g then [mkKeptGroup commits pc g] else []),
       st.2 ++ evictedHashes commits pc pg g) := by
  have hlen : (validConfident commits.length pc g).length ≤ (confidentOf pc g).length :=
    List.length_filter_le _ _
  by_cases hk : keptCond commits pc pg g = true
  · obtain ⟨ho, hv⟩ := (keptCond_iff commits pc pg g).mp hk
    have hc : 2 ≤ (g.commits.filter (fun c => pc ≤ c.confidence)).length := by
      exact le_trans hv hlen
    unfold clusterFilterStep
    rw [if_pos ⟨ho, hc⟩]
    rw [if_pos (show 2 ≤ (((g.commits.filter (fun c => pc ≤ c.confidence)).filter
        (fun c => validIndex commits.length c.index)).map
          (fun c => hashAtIndex commits c.index)).length by
      rw [List.length_map]
      exact hv)]
    rw [hk]
    unfold evictedHashes mkKeptGroup keptHashes validConfident confidentOf
    rw [hk]
    simp
  · have hkf : keptCond commits pc pg g = false := by
      revert hk
      cases keptCond commits pc pg g <;> simp
    have hnot : ¬ (pg ≤ g.overall_confidence ∧
        2 ≤ (validConfident commits.length pc g).length) := by
      intro hcontra
      exact hk ((keptCond_iff commits pc pg g).mpr hcontra)
    unfold clusterFilterStep
    by_cases h1 : pg ≤ g.overall_confidence ∧
        2 ≤ (g.commits.filter (fun c => pc ≤ c.confidence)).length
    · rw [if_pos h1]
      have hv : ¬ 2 ≤ (validConfident commits.length pc g).length := by
        intro hv
        exact hnot ⟨h1.1, hv⟩
      rw [if_neg (show ¬ 2 ≤ (((g.commits.filter (fun c => pc ≤ c.confidence)).filter
          (fun c => validIndex commits.length c.index)).map
            (fun c => hashAtIndex commits c.index)).length by
        rw [List.length_map]
        exact hv)]
      unfold evictedHashes keptHashes validConfident confidentOf
      rw [hkf]
      simp [List.append_assoc]
    · rw [if_neg h1]
      unfold evictedHashes keptHashes validConfident confidentOf
      rw [hkf]
      simp [List.append_assoc]

lemma clusterFilter_foldl (commits : List EvidenceCommit) (pc pg : ℚ)
    (L : List ProposedGroup) :
    ∀ gs ung, L.foldl (clusterFilterStep commits pc pg) (gs, ung) =
      (gs ++ (L.filter (keptCond commits pc pg)).map (mkKeptGroup commits pc),
       ung ++ L.flatMap (evictedHashes commits pc pg)) := by
  induction L with
  | nil => intro gs ung; simp
  | cons g L ih =>
    intro gs ung
    rw [List.foldl_cons, clusterFilterStep_eq, ih]
    by_cases hk : keptCond commits pc pg g = true
    · simp [hk, List.filter_cons, List.append_assoc]
    · simp only [Bool.not_eq_true] at hk
      simp [hk, List.filter_cons, List.append_assoc]

/-- Full characterization of the post-processor on a successful parse
of at least 2 commits: the surviving groups are exactly the kept
proposed groups in order, and the ungrouped set is the deduplicated
concatenation of the model's own (valid) ungrouped ordinals and the
per-group evictions. -/
lemma analyze_some_eq (commits : List EvidenceCommit) (parsed : ParsedClustering)
    (s : ClusteringSensitivity) (h2 : 2 ≤ commits.length) :
    analyzeCommitsForGrouping commits (some parsed) s =
      { groups := (parsed.groups.filter
          (keptCond commits (getConfidenceThresholds s).perCommit
            (getConfidenceThresholds s).perGroup)).map
          (mkKeptGroup commits (getConfidenceThresholds s).perCommit),
        ungrouped := dedupFirst (baseUngrouped commits parsed
          ++ parsed.groups.flatMap (evictedHashes commits
              (getConfidenceThresholds s).perCommit
              (getConfidenceThresholds s).perGroup)) } := by
  unfold analyzeCommitsForGrouping
  rw [if_neg (by omega)]
  simp only [clusterFilter_foldl]
  rfl

lemma mem_dedupFirstAux (x : String) :
    ∀ (l : List String) (seen : List String),
      x ∈ dedupFirstAux seen l ↔ x ∈ l ∧ x ∉ seen := by
  intro l
  induction l with
  | nil => intro seen; simp [dedupFirstAux]
  | cons y rest ih =>
    intro seen
    unfold dedupFirstAux
    by_cases hy : seen.contains y
    · rw [if_pos hy]
      rw [ih]
      constructor
      · rintro ⟨hm, hs⟩
        exact ⟨List.mem_cons_of_mem _ hm, hs⟩
      · rintro ⟨hm, hs⟩
        rcases List.mem_cons.mp hm with h | h
        · subst h
          exact absurd (by simpa [List.elem_iff] using hy) hs
        · exact ⟨h, hs⟩
    · rw [if_neg hy]
      constructor
      · intro hm
        rcases List.mem_cons.mp hm with h | h
        · subst h
          refine ⟨List.mem_cons_self _ _, ?_⟩
          simpa [List.elem_iff] using hy
        · have := (ih (y :: seen)).mp h
          refine ⟨List.mem_cons_of_mem _ this.1, ?_⟩
          intro hc
          exact this.2 (List.mem_cons_of_mem _ hc)
      · rintro ⟨hm, hs⟩
        rcases List.mem_cons.mp hm with h | h
        · subst h
          exact List.mem_cons_self _ _
        · by_cases hxy : x = y
          · subst hxy
            exact List.mem_cons_self _ _
          · refine List.mem_cons_of_mem _ ((ih (y :: seen)).mpr ⟨h, ?_⟩)
            intro hc
            rcases List.mem_cons.mp hc with h' | h'
            · exact hxy h'
            · exact hs h'

lemma mem_dedupFirst (x : String) (l : List String) : x ∈ dedupFirst l ↔ x ∈ l := by
  unfold dedupFirst
  rw [mem_dedupFirstAux]
  simp

/-- Claim C5: on a parse failure the post-processor returns the empty
group list and all input hashes ungrouped, for every commit batch and
sensitivity, and (being a total function) never raises. -/
theorem C5_parse_failure_all_ungrouped (commits : List EvidenceCommit)
    (s : ClusteringSensitivity) :
    analyzeCommitsForGrouping commits none s
      = { groups := [], ungrouped := commits.map (fun c => c.hash) } := by
  unfold analyzeCommitsForGrouping
  split
  · rfl
  · rfl

/-- Claim C3: the sensitivity table is (0.90,0.85), (0.80,0.70),
(0.60,0.50); every proposed member referencing a real commit with
confidence below perCommit is evicted to the ungrouped set; a proposed
group survives exactly when its stated overall confidence is at least
perGroup and at least 2 members remain after per-commit eviction (kept
with exactly those members); and when a group dissolves every
remaining member is evicted to the ungrouped set. -/
theorem C3_confidence_filtering (commits : List EvidenceCommit)
    (parsed : ParsedClustering) (s : ClusteringSensitivity)
    (h2 : 2 ≤ commits.length) :
    (getConfidenceThresholds .strict
        = { perCommit := mkRat 90 100, perGroup := mkRat 85 100 } ∧
     getConfidenceThresholds .balanced
        = { perCommit := mkRat 80 100, perGroup := mkRat 70 100 } ∧
     getConfidenceThresholds .loose
        = { perCommit := mkRat 60 100, perGroup := mkRat 50 100 }) ∧
    (∀ g ∈ parsed.groups, ∀ c ∈ g.commits,
        validIndex commits.length c.index = true →
        c.confidence < (getConfidenceThresholds s).perCommit →
        hashAtIndex commits c.index ∈
          (analyzeCommitsForGrouping commits (some parsed) s).ungrouped) ∧
    ((analyzeCommitsForGrouping commits (some parsed) s).groups
      = (parsed.groups.filter (keptCond commits (getConfidenceThresholds s).perCommit
          (getConfidenceThresholds s).perGroup)).map
          (mkKeptGroup commits (getConfidenceThresholds s).perCommit)) ∧
    (∀ g ∈ parsed.groups,
        keptCond commits (getConfidenceThresholds s).perCommit
          (getConfidenceThresholds s).perGroup g = false →
        ∀ c ∈ validConfident commits.length (getConfidenceThresholds s).perCommit g,
          hashAtIndex commits c.index ∈
            (analyzeCommitsForGrouping commits (some parsed) s).ungrouped) := by
  have hchar := analyze_some_eq commits parsed s h2
  refine ⟨⟨rfl, rfl, rfl⟩, ?_, ?_, ?_⟩
  · intro g hg c hc hvalid hconf
    rw [hchar]
    show hashAtIndex commits c.index ∈ dedupFirst _
    rw [mem_dedupFirst, List.mem_append]
    right
    rw [List.mem_flatMap]
    refine ⟨g, hg, ?_⟩
    unfold evictedHashes
    rw [List.mem_append]
    left
    rw [List.mem_map]
    refine ⟨c, ?_, rfl⟩
    rw [List.mem_filter, List.mem_filter]
    refine ⟨⟨hc, ?_⟩, hvalid⟩
    simpa using hconf
  · rw [hchar]
  · intro g hg hkf c hcv
    rw [hchar]
    show hashAtIndex commits c.index ∈ dedupFirst _
    rw [mem_dedupFirst, List.mem_append]
    right
    rw [List.mem_flatMap]
    refine ⟨g, hg, ?_⟩
    unfold evictedHashes
    rw [List.mem_append]
    right
    rw [hkf]
    show hashAtIndex commits c.index ∈ keptHashes commits _ g
    unfold keptHashes
    exact List.mem_map.mpr ⟨c, hcv, rfl⟩

/-- Witness for C3: in the concrete balanced run over two commits, the
member with confidence 0.50 (below perCommit 0.80) is evicted to the
ungrouped set. -/
theorem C3_witness :
    "h1" ∈ (analyzeCommitsForGrouping twoCommits (some lowMemberParsed) .balanced).ungrouped :=
  (C3_confidence_filtering twoCommits lowMemberParsed .balanced (by decide)).2.1
    { name := "g", theme := "other",
      commits := [{ index := 1, confidence := mkRat 50 100 },
                  { index := 2, confidence := mkRat 95 100 }],
      overall_confidence := mkRat 72 100, reasoning := "r" }
    (by decide)
    { index := 1, confidence := mkRat 50 100 }
    (by decide) (by decide) (by decide)

/-! ### Monotonicity of the sensitivity policy -/
lemma validConfident_restrict (n : Nat) (pc1 pc2 : ℚ) (hpc : pc2 ≤ pc1)
    (g : ProposedGroup) :
    validConfident n pc1 g
      = (validConfident n pc2 g).filter (fun c => decide (pc1 ≤ c.confidence)) := by
  unfold validConfident confidentOf
  rw [List.filter_comm (fun c => decide (pc1 ≤ c.confidence))
    (fun c => validIndex n c.index)
    (List.filter (fun c => decide (pc2 ≤ c.confidence)) g.commits)]
  congr 1
  rw [List.filter_filter]
  apply List.filter_congr
  intro c _
  by_cases h : pc1 ≤ c.confidence
  · simp [h, le_trans hpc h]
  · simp [h]

lemma keptCond_mono (commits : List EvidenceCommit) (pc1 pg1 pc2 pg2 : ℚ)
    (hpc : pc2 ≤ pc1) (hpg : pg2 ≤ pg1) (g : ProposedGroup)
    (h : keptCond commits pc1 pg1 g = true) : keptCond commits pc2 pg2 g = true := by
  rw [keptCond_iff] at h ⊢
  refine ⟨le_trans hpg h.1, le_trans h.2 ?_⟩
  rw [validConfident_restrict commits.length pc1 pc2 hpc g]
  exact List.length_filter_le _ _

lemma keptHashes_mono (commits : List EvidenceCommit) (pc1 pc2 : ℚ) (hpc : pc2 ≤ pc1)
    (g : ProposedGroup) (x : String) (hx : x ∈ keptHashes commits pc1 g) :
    x ∈ keptHashes commits pc2 g := by
  unfold keptHashes at hx ⊢
  rcases List.mem_map.mp hx with ⟨c, hc, rfl⟩
  refine List.mem_map.mpr ⟨c, ?_, rfl⟩
  rw [validConfident_restrict commits.length pc1 pc2 hpc g] at hc
  exact List.mem_of_mem_filter hc

lemma retained_mono (commits : List EvidenceCommit) (parsed : ParsedClustering)
    (s1 s2 : ClusteringSensitivity)
    (hpc : (getConfidenceThresholds s2).perCommit ≤ (getConfidenceThresholds s1).perCommit)
    (hpg : (getConfidenceThresholds s2).perGroup ≤ (getConfidenceThresholds s1).perGroup) :
    retainedHashes commits (some parsed) s1 ⊆ retainedHashes commits (some parsed) s2 := by
  intro x hx
  by_cases h2 : 2 ≤ commits.length
  · unfold retainedHashes at hx ⊢
    rw [analyze_some_eq commits parsed s1 h2] at hx
    rw [analyze_some_eq commits parsed s2 h2]
    simp only [List.map_map, List.mem_flatten, List.mem_map] at hx ⊢
    rcases hx with ⟨l, ⟨g, hg, rfl⟩, hxl⟩
    rcases List.mem_filter.mp hg with ⟨hgmem, hgkept⟩
    refine ⟨keptHashes commits (getConfidenceThresholds s2).perCommit g,
      ⟨g, List.mem_filter.mpr ⟨hgmem,
        keptCond_mono commits _ _ _ _ hpc hpg g hgkept⟩, rfl⟩, ?_⟩
    exact keptHashes_mono commits _ _ hpc g x hxl
  · unfold retainedHashes analyzeCommitsForGrouping at hx
    rw [if_pos (by omega)] at hx
    simp at hx

/-- Claim C4: for a fixed parsed model output over a fixed commit
list, the commits retained in surviving groups under strict form a
subset of those retained under balanced, which form a subset of those
retained under loose. -/
theorem C4_sensitivity_monotonicity (commits : List EvidenceCommit)
    (parsed : ParsedClustering) :
    retainedHashes commits (some parsed) .strict
        ⊆ retainedHashes commits (some parsed) .balanced ∧
    retainedHashes commits (some parsed) .balanced
        ⊆ retainedHashes commits (some parsed) .loose :=
  ⟨retained_mono commits parsed .strict .balanced (by decide) (by decide),
   retained_mono commits parsed .balanced .loose (by decide) (by decide)⟩

/-- Counterexample to claim C6 as stated: with the concrete model
output that lists commit 1 both inside a kept group and in its own
ungrouped list, hash h1 ends up both in a returned group's hash list
and in the returned ungrouped list. -/
theorem C6_counterexample :
    "h1" ∈ (((analyzeCommitsForGrouping twoCommits (some doubledParsed)
        .balanced).groups.map (fun g => g.commitHashes)).flatten) ∧
    "h1" ∈ (analyzeCommitsForGrouping twoCommits (some doubledParsed)
        .balanced).ungrouped := by
  decide

/-! ### Exactly-one terminal state under unambiguous model output -/
lemma count_map_eq_countP {α β : Type} [DecidableEq β] (x : β) (f : α → β) (l : List α) :
    (l.map f).count x = l.countP (fun a => decide (f a = x)) := by
  rw [List.count_eq_countP, List.countP_map]
  apply List.countP_congr
  intro a _
  constructor <;> intro h <;> simpa using h

lemma countP_split {α : Type} (p q : α → Bool) (l : List α) :
    l.countP (fun a => p a && q a) + l.countP (fun a => p a && !(q a)) = l.countP p := by
  induction l with
  | nil => rfl
  | cons a l ih =>
    by_cases hp : p a = true <;> by_cases hq : q a = true <;>
      simp [List.countP_cons, hp, hq] <;> omega

lemma count_flatMap {α β : Type} [BEq β] (x : β) (f : α → List β) (L : List α) :
    (L.flatMap f).count x = (L.map (fun a => (f a).count x)).sum := by
  induction L with
  | nil => rfl
  | cons a L ih =>
    rw [List.flatMap_cons, List.count_append, ih]
    rfl

lemma nodup_dedupFirstAux : ∀ (l seen : List String), (dedupFirstAux seen l).Nodup := by
  intro l
  induction l with
  | nil => intro seen; exact List.nodup_nil
  | cons x rest ih =>
    intro seen
    unfold dedupFirstAux
    by_cases hx : seen.contains x
    · rw [if_pos hx]
      exact ih seen
    · rw [if_neg hx]
      refine List.Nodup.cons ?_ (ih (x :: seen))
      intro hc
      have := (mem_dedupFirstAux x rest (x :: seen)).mp hc
      exact this.2 (List.mem_cons_self _ _)

lemma count_dedupFirst (x : String) (l : List String) :
    (dedupFirst l).count x = if x ∈ l then 1 else 0 := by
  by_cases h : x ∈ l
  · rw [if_pos h]
    exact List.count_eq_one_of_mem (nodup_dedupFirstAux l []) ((mem_dedupFirst x l).mpr h)
  · rw [if_neg h]
    exact List.count_eq_zero_of_not_mem (fun hc => h ((mem_dedupFirst x l).mp hc))

lemma validIndex_succ (n k : Nat) (hk : k < n) : validIndex n ((k : Int) + 1) = true := by
  unfold validIndex
  simp only [Bool.and_eq_true, decide_eq_true_eq]
  omega

lemma hashAtIndex_valid (commits : List EvidenceCommit) (j : Int)
    (hv : validIndex commits.length j = true) :
    ∃ (hj : (j - 1).toNat < commits.length),
      hashAtIndex commits j = (commits.get ⟨(j - 1).toNat, hj⟩).hash := by
  unfold validIndex at hv
  simp only [Bool.and_eq_true, decide_eq_true_eq] at hv
  have hj : (j - 1).toNat < commits.length := by omega
  refine ⟨hj, ?_⟩
  unfold hashAtIndex
  rw [List.getElem?_eq_getElem hj]
  rfl

lemma hashAtIndex_eq_iff (commits : List EvidenceCommit)
    (hnd : (commits.map (fun c => c.hash)).Nodup)
    (j : Int) (hv : validIndex commits.length j = true)
    (k : Nat) (hk : k < commits.length) :
    (hashAtIndex commits j = (commits.get ⟨k, hk⟩).hash) ↔ j = (k : Int) + 1 := by
  obtain ⟨hj, heq⟩ := hashAtIndex_valid commits j hv
  rw [heq]
  unfold validIndex at hv
  simp only [Bool.and_eq_true, decide_eq_true_eq] at hv
  constructor
  · intro hh
    have hjk : (j - 1).toNat = k := by
      have hlen : (commits.map (fun c => c.hash)).length = commits.length :=
        List.length_map _ _
      have hget : (commits.map (fun c => c.hash)).get ⟨(j - 1).toNat, by omega⟩
          = (commits.map (fun c => c.hash)).get ⟨k, by omega⟩ := by
        rw [List.get_map, List.get_map]
        exact hh
      have := (hnd.get_inj_iff).mp hget
      simpa using this
    omega
  · intro hj'
    have hjk : (j - 1).toNat = k := by omega
    have hfin : (⟨(j - 1).toNat, hj⟩ : Fin commits.length) = ⟨k, hk⟩ := by
      apply Fin.ext
      exact hjk
    rw [hfin]

lemma count_keptHashes_eq (commits : List EvidenceCommit)
    (hnd : (commits.map (fun c => c.hash)).Nodup) (pc : ℚ)
    (k : Nat) (hk : k < commits.length) (g : ProposedGroup) :
    (keptHashes commits pc g).count (commits.get ⟨k, hk⟩).hash
      = survCount commits pc ((k : Int) + 1) g := by
  unfold keptHashes survCount
  rw [count_map_eq_countP]
  apply List.countP_congr
  intro m hm
  have hv : validIndex commits.length m.index = true := by
    unfold validConfident at hm
    exact (List.mem_filter.mp hm).2
  simp only [decide_eq_true_eq]
  exact hashAtIndex_eq_iff commits hnd m.index hv k hk

lemma surv_add_low (commits : List EvidenceCommit) (pc : ℚ)
    (k : Nat) (hk : k < commits.length) (g : ProposedGroup) :
    survCount commits pc ((k : Int) + 1) g + lowCount commits pc ((k : Int) + 1) g
      = refCount ((k : Int) + 1) g := by
  have hvi := validIndex_succ commits.length k hk
  unfold survCount lowCount refCount validConfident confidentOf
  rw [count_map_eq_countP]
  rw [List.countP_filter, List.countP_filter, List.countP_filter, List.countP_filter]
  have e1 : g.commits.countP
      (fun m => (decide (m.index = (k : Int) + 1) && validIndex commits.length m.index)
        && decide (pc ≤ m.confidence))
      = g.commits.countP
        (fun m => decide (m.index = (k : Int) + 1) && decide (pc ≤ m.confidence)) := by
    apply List.countP_congr
    intro m _
    by_cases hi : m.index = (k : Int) + 1
    · rw [hi]
      simp [hvi]
    · simp [hi]
  have e2 : g.commits.countP
      (fun m => (decide (m.index = (k : Int) + 1) && validIndex commits.length m.index)
        && decide (m.confidence < pc))
      = g.commits.countP
        (fun m => decide (m.index = (k : Int) + 1) && !(decide (pc ≤ m.confidence))) := by
    apply List.countP_congr
    intro m _
    by_cases hi : m.index = (k : Int) + 1
    · rw [hi]
      simp only [hvi]
      by_cases hc : pc ≤ m.confidence
      · simp [hc, not_lt.mpr hc]
      · simp [hc, lt_of_not_le hc]
    · simp [hi]
  rw [e1, e2]
  exact countP_split _ _ g.commits

lemma mem_evictedHashes_iff (commits : List EvidenceCommit)
    (hnd : (commits.map (fun c => c.hash)).Nodup) (pc pg : ℚ)
    (k : Nat) (hk : k < commits.length) (g : ProposedGroup) :
    ((commits.get ⟨k, hk⟩).hash ∈ evictedHashes commits pc pg g)
      ↔ (0 < lowCount commits pc ((k : Int) + 1) g
          ∨ (keptCond commits pc pg g = false
              ∧ 0 < survCount commits pc ((k : Int) + 1) g)) := by
  unfold evictedHashes
  rw [List.mem_append]
  have h1 : ((commits.get ⟨k, hk⟩).hash ∈
      ((g.commits.filter (fun c => c.confidence < pc)).filter
        (fun c => validIndex commits.length c.index)).map
          (fun c => hashAtIndex commits c.index))
      ↔ 0 < lowCount commits pc ((k : Int) + 1) g := by
    unfold lowCount
    rw [List.countP_pos, List.mem_map]
    constructor
    · rintro ⟨m, hm, hh⟩
      have hv : validIndex commits.length m.index = true := (List.mem_filter.mp hm).2
      refine ⟨m, hm, ?_⟩
      simp only [decide_eq_true_eq]
      exact (hashAtIndex_eq_iff commits hnd m.index hv k hk).mp hh
    · rintro ⟨m, hm, hi⟩
      have hv : validIndex commits.length m.index = true := (List.mem_filter.mp hm).2
      refine ⟨m, hm, ?_⟩
      exact (hashAtIndex_eq_iff commits hnd m.index hv k hk).mpr (by simpa using hi)
  have h2 : ((commits.get ⟨k, hk⟩).hash ∈ keptHashes commits pc g)
      ↔ 0 < survCount commits pc ((k : Int) + 1) g := by
    unfold keptHashes survCount
    rw [List.countP_pos, List.mem_map]
    constructor
    · rintro ⟨m, hm, hh⟩
      have hv : validIndex commits.length m.index = true := by
        unfold validConfident at hm
        exact (List.mem_filter.mp hm).2
      refine ⟨m, hm, ?_⟩
      simp only [decide_eq_true_eq]
      exact (hashAtIndex_eq_iff commits hnd m.index hv k hk).mp hh
    · rintro ⟨m, hm, hi⟩
      have hv : validIndex commits.length m.index = true := by
        unfold validConfident at hm
        exact (List.mem_filter.mp hm).2
      refine ⟨m, hm, ?_⟩
      exact (hashAtIndex_eq_iff commits hnd m.index hv k hk).mpr (by simpa using hi)
  rw [h1]
  by_cases hkc : keptCond commits pc pg g = true
  · rw [if_pos hkc]
    constructor
    · rintro (h | h)
      · exact Or.inl h
      · exact absurd h (List.not_mem_nil _)
    · rintro (h | ⟨hf, _⟩)
      · exact Or.inl h
      · rw [hkc] at hf
        exact absurd hf (by simp)
  · have hkf : keptCond commits pc pg g = false := by
      revert hkc
      cases keptCond commits pc pg g <;> simp
    rw [if_neg hkc, h2]
    constructor
    · rintro (h | h)
      · exact Or.inl h
      · exact Or.inr ⟨hkf, h⟩
    · rintro (h | ⟨_, h⟩)
      · exact Or.inl h
      · exact Or.inr h

lemma group_vanish (commits : List EvidenceCommit)
    (hnd : (commits.map (fun c => c.hash)).Nodup) (pc pg : ℚ)
    (k : Nat) (hk : k < commits.length) (g : ProposedGroup)
    (h0 : refCount ((k : Int) + 1) g = 0) :
    survCount commits pc ((k : Int) + 1) g = 0
      ∧ (commits.get ⟨k, hk⟩).hash ∉ evictedHashes commits pc pg g := by
  have hsum := surv_add_low commits pc k hk g
  have hs : survCount commits pc ((k : Int) + 1) g = 0 := by omega
  have hl : lowCount commits pc ((k : Int) + 1) g = 0 := by omega
  refine ⟨hs, ?_⟩
  rw [mem_evictedHashes_iff commits hnd pc pg k hk g]
  rintro (h | ⟨_, h⟩) <;> omega

lemma group_contribution (commits : List EvidenceCommit)
    (hnd : (commits.map (fun c => c.hash)).Nodup) (pc pg : ℚ)
    (k : Nat) (hk : k < commits.length) (g : ProposedGroup)
    (h1 : refCount ((k : Int) + 1) g = 1) :
    (if keptCond commits pc pg g = true then survCount commits pc ((k : Int) + 1) g else 0)
      + (if (commits.get ⟨k, hk⟩).hash ∈ evictedHashes commits pc pg g then 1 else 0)
      = 1 := by
  have hsum := surv_add_low commits pc k hk g
  by_cases hm : (commits.get ⟨k, hk⟩).hash ∈ evictedHashes commits pc pg g
  · rw [if_pos hm]
    have hcases := (mem_evictedHashes_iff commits hnd pc pg k hk g).mp hm
    by_cases hkc : keptCond commits pc pg g = true
    · rw [if_pos hkc]
      rcases hcases with h | ⟨hf, _⟩
      · omega
      · rw [hkc] at hf
        exact absurd hf (by simp)
    · rw [if_neg hkc]
  · rw [if_neg hm]
    have hnot := hm
    rw [mem_evictedHashes_iff commits hnd pc pg k hk g] at hnot
    push_neg at hnot
    by_cases hkc : keptCond commits pc pg g = true
    · rw [if_pos hkc]
      have hl0 : lowCount commits pc ((k : Int) + 1) g = 0 := by omega
      omega
    · rw [if_neg hkc]
      have hkf : keptCond commits pc pg g = false := by
        revert hkc
        cases keptCond commits pc pg g <;> simp
      have hl0 : lowCount commits pc ((k : Int) + 1) g = 0 := by
        have := hnot.1
        omega
      have hs0 : survCount commits pc ((k : Int) + 1) g = 0 := by
        have := hnot.2 hkf
        omega
      omega

lemma groups_sum_zero (commits : List EvidenceCommit)
    (hnd : (commits.map (fun c => c.hash)).Nodup) (pc pg : ℚ)
    (k : Nat) (hk : k < commits.length) :
    ∀ L : List ProposedGroup,
      (L.map (refCount ((k : Int) + 1))).sum = 0 →
      (((L.filter (keptCond commits pc pg)).map
          (fun g => (keptHashes commits pc g).count (commits.get ⟨k, hk⟩).hash)).sum = 0
        ∧ (commits.get ⟨k, hk⟩).hash ∉ L.flatMap (evictedHashes commits pc pg)) := by
  intro L
  induction L with
  | nil =>
    intro _
    exact ⟨rfl, by simp⟩
  | cons g L ih =>
    intro h
    rw [List.map_cons, List.sum_cons] at h
    have hg0 : refCount ((k : Int) + 1) g = 0 := by omega
    have hL0 : (L.map (refCount ((k : Int) + 1))).sum = 0 := by omega
    obtain ⟨hS, hnm⟩ := ih hL0
    obtain ⟨hsv, hne⟩ := group_vanish commits hnd pc pg k hk g hg0
    constructor
    · by_cases hkc : keptCond commits pc pg g = true
      · rw [List.filter_cons_of_pos hkc, List.map_cons, List.sum_cons,
          count_keptHashes_eq commits hnd pc k hk g, hsv, hS]
      · rw [List.filter_cons_of_neg hkc]
        exact hS
    · rw [List.flatMap_cons, List.mem_append]
      rintro (h | h)
      · exact hne h
      · exact hnm h

lemma groups_sum_one (commits : List EvidenceCommit)
    (hnd : (commits.map (fun c => c.hash)).Nodup) (pc pg : ℚ)
    (k : Nat) (hk : k < commits.length) :
    ∀ L : List ProposedGroup,
      (L.map (refCount ((k : Int) + 1))).sum = 1 →
      (((L.filter (keptCond commits pc pg)).map
          (fun g => (keptHashes commits pc g).count (commits.get ⟨k, hk⟩).hash)).sum)
        + (if (commits.get ⟨k, hk⟩).hash ∈ L.flatMap (evictedHashes commits pc pg)
            then 1 else 0) = 1 := by
  intro L
  induction L with
  | nil =>
    intro h
    simp at h
  | cons g L ih =>
    intro h
    rw [List.map_cons, List.sum_cons] at h
    by_cases hg1 : refCount ((k : Int) + 1) g = 1
    · have hL0 : (L.map (refCount ((k : Int) + 1))).sum = 0 := by omega
      obtain ⟨hS, hnm⟩ := groups_sum_zero commits hnd pc pg k hk L hL0
      have hc := group_contribution commits hnd pc pg k hk g hg1
      by_cases hmh : (commits.get ⟨k, hk⟩).hash ∈ evictedHashes commits pc pg g
      · have hmem : (commits.get ⟨k, hk⟩).hash
            ∈ (g :: L).flatMap (evictedHashes commits pc pg) := by
          rw [List.flatMap_cons, List.mem_append]
          exact Or.inl hmh
        rw [if_pos hmem]
        rw [if_pos hmh] at hc
        by_cases hkc : keptCond commits pc pg g = true
        · rw [if_pos hkc] at hc
          rw [List.filter_cons_of_pos hkc, List.map_cons, List.sum_cons,
            count_keptHashes_eq commits hnd pc k hk g, hS]
          omega
        · rw [if_neg hkc] at hc
          rw [List.filter_cons_of_neg hkc, hS]
      · have hmem : (commits.get ⟨k, hk⟩).hash
            ∉ (g :: L).flatMap (evictedHashes commits pc pg) := by
          rw [List.flatMap_cons, List.mem_append]
          rintro (h' | h')
          · exact hmh h'
          · exact hnm h'
        rw [if_neg hmem]
        rw [if_neg hmh] at hc
        by_cases hkc : keptCond commits pc pg g = true
        · rw [if_pos hkc] at hc
          rw [List.filter_cons_of_pos hkc, List.map_cons, List.sum_cons,
            count_keptHashes_eq commits hnd pc k hk g, hS]
          omega
        · rw [if_neg hkc] at hc
          omega
    · have hg0 : refCount ((k : Int) + 1) g = 0 := by omega
      have hL1 : (L.map (refCount ((k : Int) + 1))).sum = 1 := by omega
      obtain ⟨hsv, hne⟩ := group_vanish commits hnd pc pg k hk g hg0
      have hih := ih hL1
      have hmemiff : ((commits.get ⟨k, hk⟩).hash
            ∈ (g :: L).flatMap (evictedHashes commits pc pg))
          ↔ (commits.get ⟨k, hk⟩).hash ∈ L.flatMap (evictedHashes commits pc pg) := by
        rw [List.flatMap_cons, List.mem_append]
        constructor
        · rintro (h' | h')
          · exact absurd h' hne
          · exact h'
        · intro h'
          exact Or.inr h'
      by_cases hmt : (commits.get ⟨k, hk⟩).hash ∈ L.flatMap (evictedHashes commits pc pg)
      · rw [if_pos (hmemiff.mpr hmt)]
        rw [if_pos hmt] at hih
        by_cases hkc : keptCond commits pc pg g = true
        · rw [List.filter_cons_of_pos hkc, List.map_cons, List.sum_cons,
            count_keptHashes_eq commits hnd pc k hk g, hsv]
          omega
        · rw [List.filter_cons_of_neg hkc]
          omega
      · rw [if_neg (fun h' => hmt (hmemiff.mp h'))]
        rw [if_neg hmt] at hih
        by_cases hkc : keptCond commits pc pg g = true
        · rw [List.filter_cons_of_pos hkc, List.map_cons, List.sum_cons,
            count_keptHashes_eq commits hnd pc k hk g, hsv]
          omega
        · rw [List.filter_cons_of_neg hkc]
          omega

lemma mkKeptGroup_commitHashes (commits : List EvidenceCommit) (pc : ℚ) (g : ProposedGroup) :
    (mkKeptGroup commits pc g).commitHashes = keptHashes commits pc g := rfl

lemma refCount_eq (i : Int) (g : ProposedGroup) :
    refCount i g = (g.commits.map (fun m => m.index)).count i := rfl

/-- Claim C6 (amended): when every ordinal 1..N occurs exactly once
across the model output (group members plus the model's own ungrouped
list) and the commit hashes are pairwise distinct, each input commit
reaches exactly one terminal state: its hash occurs exactly once in
total across the returned groups' hash lists and the returned
ungrouped list.  (As stated the claim is false: an ordinal mentioned
twice lands in a group and in ungrouped simultaneously, see the
counterexample.) -/
theorem C6_amended_exactly_one (commits : List EvidenceCommit) (parsed : ParsedClustering)
    (s : ClusteringSensitivity) (h2 : 2 ≤ commits.length)
    (hnd : (commits.map (fun c => c.hash)).Nodup)
    (hcount : ∀ j : Nat, j < commits.length →
        (allModelIndices parsed).count ((j : Int) + 1) = 1) :
    ∀ c ∈ commits,
      (((analyzeCommitsForGrouping commits (some parsed) s).groups.map
          (fun g => g.commitHashes.count c.hash)).sum)
        + (analyzeCommitsForGrouping commits (some parsed) s).ungrouped.count c.hash
      = 1 := by
  intro c hc
  rcases List.mem_iff_get.mp hc with ⟨⟨k, hk⟩, hck⟩
  subst hck
  rw [analyze_some_eq commits parsed s h2]
  show ((((parsed.groups.filter (keptCond commits (getConfidenceThresholds s).perCommit
      (getConfidenceThresholds s).perGroup)).map
        (mkKeptGroup commits (getConfidenceThresholds s).perCommit)).map
          (fun g => g.commitHashes.count (commits.get ⟨k, hk⟩).hash)).sum)
    + (dedupFirst (baseUngrouped commits parsed
        ++ parsed.groups.flatMap (evictedHashes commits
            (getConfidenceThresholds s).perCommit
            (getConfidenceThresholds s).perGroup))).count (commits.get ⟨k, hk⟩).hash = 1
  rw [List.map_map]
  simp only [Function.comp_def, mkKeptGroup_commitHashes]
  rw [count_dedupFirst]
  have htotal := hcount k hk
  unfold allModelIndices at htotal
  rw [List.count_append, count_flatMap] at htotal
  simp only [← refCount_eq] at htotal
  have hvi := validIndex_succ commits.length k hk
  by_cases hU : ((k : Int) + 1) ∈ parsed.ungrouped.getD []
  · have hcU : 0 < (parsed.ungrouped.getD []).count ((k : Int) + 1) :=
      List.count_pos_iff.mpr hU
    have hM : (parsed.groups.map (fun g => refCount ((k : Int) + 1) g)).sum = 0 := by omega
    obtain ⟨hS, _⟩ := groups_sum_zero commits hnd
      (getConfidenceThresholds s).perCommit (getConfidenceThresholds s).perGroup
      k hk parsed.groups hM
    have hbase : (commits.get ⟨k, hk⟩).hash ∈ baseUngrouped commits parsed := by
      unfold baseUngrouped
      refine List.mem_map.mpr ⟨(k : Int) + 1, List.mem_filter.mpr ⟨hU, hvi⟩, ?_⟩
      exact (hashAtIndex_eq_iff commits hnd _ hvi k hk).mpr rfl
    rw [if_pos (List.mem_append.mpr (Or.inl hbase))]
    rw [hS]
  · have hcU : (parsed.ungrouped.getD []).count ((k : Int) + 1) = 0 :=
      List.count_eq_zero_of_not_mem hU
    have hM : (parsed.groups.map (fun g => refCount ((k : Int) + 1) g)).sum = 1 := by omega
    have hkey := groups_sum_one commits hnd
      (getConfidenceThresholds s).perCommit (getConfidenceThresholds s).perGroup
      k hk parsed.groups hM
    have hnbase : (commits.get ⟨k, hk⟩).hash ∉ baseUngrouped commits parsed := by
      intro hmem
      unfold baseUngrouped at hmem
      rcases List.mem_map.mp hmem with ⟨j, hjmem, hje⟩
      rcases List.mem_filter.mp hjmem with ⟨hjU, hjv⟩
      have := (hashAtIndex_eq_iff commits hnd j hjv k hk).mp hje
      subst this
      exact hU hjU
    by_cases hmf : (commits.get ⟨k, hk⟩).hash
        ∈ parsed.groups.flatMap (evictedHashes commits
            (getConfidenceThresholds s).perCommit (getConfidenceThresholds s).perGroup)
    · rw [if_pos (List.mem_append.mpr (Or.inr hmf))]
      rw [if_pos hmf] at hkey
      omega
    · rw [if_neg (fun hmem => by
        rcases List.mem_append.mp hmem with h' | h'
        · exact hnbase h'
        · exact hmf h')]
      rw [if_neg hmf] at hkey
      omega

/-- Witness for the amended C6: on the concrete unambiguous model
output, hash h1 occurs exactly once in total across groups and
ungrouped. -/
theorem C6_witness :
    (((analyzeCommitsForGrouping twoCommits (some uniqueParsed) .balanced).groups.map
        (fun g => g.commitHashes.count "h1")).sum)
      + (analyzeCommitsForGrouping twoCommits
          (some uniqueParsed) .balanced).ungrouped.count "h1" = 1 :=
  C6_amended_exactly_one twoCommits uniqueParsed .balanced (by decide) (by decide)
    (by decide) { hash := "h1", message := "m1", filesChanged := [], diffSample := "" }
    (by decide)

/-! ### Sorting and association-list lemmas -/
lemma stableInsertBy_perm {α : Type} (ge : α → α → Bool) (a : α) (l : List α) :
    (stableInsertBy ge a l).Perm (a :: l) := by
  induction l with
  | nil => exact List.Perm.refl _
  | cons b l ih =>
    unfold stableInsertBy
    by_cases h : ge a b = true
    · rw [if_pos h]
    · rw [if_neg h]
      exact ((ih.cons b).trans (List.Perm.swap a b l))

lemma stableSortBy_perm {α : Type} (ge : α → α → Bool) (l : List α) :
    (stableSortBy ge l).Perm l := by
  induction l with
  | nil => exact List.Perm.refl _
  | cons a l ih =>
    unfold stableSortBy
    exact (stableInsertBy_perm ge a (stableSortBy ge l)).trans (ih.cons a)

lemma sortByCommitCountDesc_perm (groups : List CommitGroup) :
    (sortByCommitCountDesc groups).Perm groups := stableSortBy_perm _ groups

lemma mem_sortByCommitCountDesc {g : CommitGroup} {groups : List CommitGroup} :
    g ∈ sortByCommitCountDesc groups ↔ g ∈ groups :=
  (sortByCommitCountDesc_perm groups).mem_iff

lemma alGet_mem {κ α : Type} [BEq κ] [LawfulBEq κ] {l : List (κ × α)} {k : κ} {v : α}
    (h : alGet l k = some v) : (k, v) ∈ l := by
  induction l with
  | nil => exact absurd h (by simp [alGet])
  | cons kv rest ih =>
    unfold alGet at h
    by_cases hk : kv.1 == k
    · rw [if_pos hk] at h
      have hkk : kv.1 = k := by simpa using hk
      have hv2 : kv.2 = v := Option.some.inj h
      have hkv : (k, v) = kv := by
        cases kv
        simp_all
      rw [hkv]
      exact List.mem_cons_self _ _
    · rw [if_neg hk] at h
      exact List.mem_cons_of_mem _ (ih h)

lemma mem_alSet_or {κ α : Type} [BEq κ] [LawfulBEq κ] {l : List (κ × α)} {k : κ} {v : α} {kv : κ × α}
    (h : kv ∈ alSet l k v) : kv ∈ l ∨ kv = (k, v) := by
  induction l with
  | nil =>
    right
    simpa [alSet] using h
  | cons kw rest ih =>
    unfold alSet at h
    by_cases hk : kw.1 == k
    · rw [if_pos hk] at h
      rcases List.mem_cons.mp h with h' | h'
      · subst h'
        have hkk : kw.1 = k := by simpa using hk
        right
        rw [← hkk]
      · exact Or.inl (List.mem_cons_of_mem _ h')
    · rw [if_neg hk] at h
      rcases List.mem_cons.mp h with h' | h'
      · subst h'
        exact Or.inl (List.mem_cons_self _ _)
      · rcases ih h' with h'' | h''
        · exact Or.inl (List.mem_cons_of_mem _ h'')
        · exact Or.inr h''

lemma alSet_keys_of_present {κ α : Type} [BEq κ] {l : List (κ × α)} {k : κ} {v : α}
    (h : (alGet l k).isSome) :
    (alSet l k v).map (fun kv => kv.1) = l.map (fun kv => kv.1) := by
  induction l with
  | nil => simp [alGet] at h
  | cons kw rest ih =>
    unfold alSet
    by_cases hk : kw.1 == k
    · rw [if_pos hk]
      simp
    · rw [if_neg hk]
      unfold alGet at h
      rw [if_neg hk] at h
      simp only [List.map_cons]
      rw [ih h]

lemma alSet_of_absent {κ α : Type} [BEq κ] {l : List (κ × α)} {k : κ} (v : α)
    (h : alGet l k = none) : alSet l k v = l ++ [(k, v)] := by
  induction l with
  | nil => rfl
  | cons kw rest ih =>
    unfold alGet at h
    by_cases hk : kw.1 == k
    · rw [if_pos hk] at h
      exact absurd h (by simp)
    · rw [if_neg hk] at h
      unfold alSet
      rw [if_neg hk, ih h]
      rfl

/-- Replacing the value at a present key while appending extra payload
to its content permutes the flattened content by appending the extra
payload. -/
lemma alSet_flatMap_perm {κ α β : Type} [BEq κ] [LawfulBEq κ] (content : α → List β)
    {l : List (κ × α)} {k : κ} {v : α} (hv : alGet l k = some v) (v' : α)
    {extra : List β} (hc : content v' = content v ++ extra) :
    ((alSet l k v').flatMap (fun kv => content kv.2)).Perm
      (l.flatMap (fun kv => content kv.2) ++ extra) := by
  induction l with
  | nil => exact absurd hv (by simp [alGet])
  | cons kw rest ih =>
    unfold alGet at hv
    unfold alSet
    by_cases hk : kw.1 == k
    · rw [if_pos hk] at hv ⊢
      have hvv : kw.2 = v := Option.some.inj hv
      rw [List.flatMap_cons, List.flatMap_cons, hc, hvv, List.append_assoc,
        List.append_assoc]
      exact List.Perm.append_left _ List.perm_append_comm
    · rw [if_neg hk] at hv ⊢
      rw [List.flatMap_cons, List.flatMap_cons, List.append_assoc]
      exact List.Perm.append_left _ (ih hv)

/-! ### Every tier is a permutation of its input

For each tier, the concatenation of all member commits of the produced
groups with the produced ungrouped remainder is a permutation of the
tier's input.  This is the engine's conservation law: no commit is
duplicated or dropped. -/
lemma flatMap_singleton_id {β : Type} (l : List β) : l.flatMap (fun a => [a]) = l := by
  induction l with
  | nil => rfl
  | cons a l ih => rw [List.flatMap_cons, ih]; rfl

lemma perm_shuffle_right {β : Type} (X E Y : List β) :
    ((X ++ E) ++ Y).Perm ((X ++ Y) ++ E) := by
  rw [List.append_assoc, List.append_assoc]
  exact List.Perm.append_left _ List.perm_append_comm

/-- Generic loop conservation: when every step appends the payload of
its item to the flattened state (up to permutation), the whole fold
appends the concatenated payloads. -/
lemma foldl_total_perm {σ α β : Type} (step : σ → α → σ) (total : σ → List β)
    (payload : α → List β)
    (h : ∀ st a, (total (step st a)).Perm (total st ++ payload a)) :
    ∀ (l : List α) (st : σ),
      (total (l.foldl step st)).Perm (total st ++ l.flatMap payload) := by
  intro l
  induction l with
  | nil =>
    intro st
    simp
  | cons a l ih =>
    intro st
    rw [List.foldl_cons, List.flatMap_cons, ← List.append_assoc]
    exact (ih (step st a)).trans ((h st a).append_right (l.flatMap payload))

lemma prStep_total (prCache : List (String × GitHubPR))
    (st : List (Nat × GitHubPR × List Commit) × List Commit) (c : Commit) :
    (prPass1Total (prStep prCache st c)).Perm (prPass1Total st ++ [c]) := by
  unfold prStep prPass1Total
  cases halGet : alGet prCache c.hash with
  | none =>
    dsimp only
    rw [← List.append_assoc]
  | some pr =>
    dsimp only
    cases hbucket : alGet st.1 pr.number with
    | some entry =>
      dsimp only
      have hperm := alSet_flatMap_perm (fun v : GitHubPR × List Commit => v.2)
        hbucket (entry.1, entry.2 ++ [c]) rfl
      exact (hperm.append_right st.2).trans (perm_shuffle_right _ [c] st.2)
    | none =>
      dsimp only
      rw [List.flatMap_append, List.flatMap_cons]
      show ((st.1.flatMap (fun b => b.2.2) ++ ([c] ++ [])) ++ st.2).Perm _
      rw [List.append_nil]
      exact perm_shuffle_right _ [c] st.2

lemma prBucketStep_total (st : List CommitGroup × List Commit)
    (b : Nat × GitHubPR × List Commit) :
    (groupsTotal (prBucketStep st b)).Perm (groupsTotal st ++ b.2.2) := by
  unfold prBucketStep groupsTotal
  by_cases hlen : 2 ≤ b.2.2.length
  · rw [if_pos hlen, List.flatMap_append, List.flatMap_cons]
    show ((st.1.flatMap (fun g => g.commits) ++ (b.2.2 ++ [])) ++ st.2).Perm _
    rw [List.append_nil]
    exact perm_shuffle_right _ _ st.2
  · rw [if_neg hlen, ← List.append_assoc]

lemma groupByPR_perm (commits : List Commit) (prCache : List (String × GitHubPR)) :
    ((groupByPR commits prCache).groups.flatMap (fun g => g.commits)
      ++ (groupByPR commits prCache).ungrouped).Perm commits := by
  unfold groupByPR
  have h1 := foldl_total_perm (prStep prCache) prPass1Total (fun c => [c])
    (prStep_total prCache) commits ([], [])
  rw [flatMap_singleton_id] at h1
  have h2 := foldl_total_perm prBucketStep groupsTotal (fun b => b.2.2)
    prBucketStep_total (commits.foldl (prStep prCache) ([], [])).1
    ([], (commits.foldl (prStep prCache) ([], [])).2)
  have hsort : ((sortByCommitCountDesc ((commits.foldl (prStep prCache) ([], [])).1.foldl
        prBucketStep ([], (commits.foldl (prStep prCache) ([], [])).2)).1).flatMap
          (fun g => g.commits)).Perm
      ((((commits.foldl (prStep prCache) ([], [])).1.foldl prBucketStep
        ([], (commits.foldl (prStep prCache) ([], [])).2)).1).flatMap
          (fun g => g.commits)) := by
    rw [List.flatMap_def, List.flatMap_def]
    exact ((sortByCommitCountDesc_perm _).map _).join
  refine (hsort.append_right _).trans ?_
  refine h2.trans ?_
  show (([] : List CommitGroup).flatMap (fun g => g.commits)
      ++ (commits.foldl (prStep prCache) ([], [])).2
      ++ ((commits.foldl (prStep prCache) ([], [])).1.flatMap (fun b => b.2.2))).Perm commits
  rw [List.flatMap_nil, List.nil_append]
  refine List.perm_append_comm.trans ?_
  exact h1

lemma sort_flatMap_perm (groups : List CommitGroup) :
    ((sortByCommitCountDesc groups).flatMap (fun g => g.commits)).Perm
      (groups.flatMap (fun g => g.commits)) := by
  rw [List.flatMap_def, List.flatMap_def]
  exact ((sortByCommitCountDesc_perm _).map _).join

lemma placeInEpic_total (st : List (String × CommitGroup) × List UngroupedEntry)
    (commit : Commit) (commitIssues : List JiraIssue)
    (epicKey : Option String) (epicName : String) :
    (featureTotal (placeInEpic st commit commitIssues epicKey epicName)).Perm
      (featureTotal st ++ [commit]) := by
  unfold placeInEpic featureTotal
  by_cases ht : strTruthy epicKey = true
  · rw [if_pos ht]
    dsimp only
    cases hget : alGet st.1 (epicKey.getD "") with
    | some group =>
      dsimp only
      have hperm := alSet_flatMap_perm (fun v : CommitGroup => v.commits) hget
        { group with
          commits := group.commits ++ [commit],
          jiraIssues := addUniqueIssues group.jiraIssues commitIssues,
          labels := mergeLabels group.labels commitIssues } rfl
      exact (hperm.append_right _).trans (perm_shuffle_right _ [commit] _)
    | none =>
      dsimp only
      rw [alSet_of_absent _ hget, List.flatMap_append, List.flatMap_cons]
      show ((st.1.flatMap (fun kv => kv.2.commits) ++ ([commit] ++ []))
          ++ st.2.map (fun u : UngroupedEntry => u.commit)).Perm
        ((st.1.flatMap (fun kv => kv.2.commits)
          ++ st.2.map (fun u : UngroupedEntry => u.commit)) ++ [commit])
      rw [List.append_nil]
      exact perm_shuffle_right _ [commit] _
  · rw [if_neg ht]
    dsimp only
    rw [List.map_append, ← List.append_assoc]
    exact List.Perm.refl _

lemma featureStep_total (jiraCache : List (String × JiraIssue))
    (epicInfo : List (String × String))
    (groupOverrides : Option (List (String × Option String)))
    (st : List (String × CommitGroup) × List UngroupedEntry) (commit : Commit) :
    (featureTotal (featureStep jiraCache epicInfo groupOverrides st commit)).Perm
      (featureTotal st ++ [commit]) := by
  unfold featureStep
  split
  · unfold featureTotal
    dsimp only
    rw [List.map_append, ← List.append_assoc]
    exact List.Perm.refl _
  · exact placeInEpic_total st commit _ _ _
  · exact placeInEpic_total st commit _ _ _

lemma groupCommitsByFeature_perm (commits : List Commit)
    (jiraCache : List (String × JiraIssue))
    (overrides : Option (List (String × Option String))) :
    (((groupCommitsByFeature commits jiraCache overrides).groups.flatMap
        (fun g => g.commits))
      ++ (groupCommitsByFeature commits jiraCache overrides).ungroupedCommits.map
        (fun u => u.commit)).Perm commits := by
  unfold groupCommitsByFeature
  have h := foldl_total_perm
    (featureStep jiraCache (buildEpicInfo jiraCache commits) overrides)
    featureTotal (fun c => [c])
    (featureStep_total jiraCache (buildEpicInfo jiraCache commits) overrides)
    commits ([], [])
  rw [flatMap_singleton_id] at h
  dsimp only
  refine ((sort_flatMap_perm _).append_right _).trans ?_
  have hmm : ((commits.foldl (featureStep jiraCache (buildEpicInfo jiraCache commits)
        overrides) ([], [])).1.map (fun kv => kv.2)).flatMap (fun g => g.commits)
      = (commits.foldl (featureStep jiraCache (buildEpicInfo jiraCache commits)
        overrides) ([], [])).1.flatMap (fun kv => kv.2.commits) := by
    rw [List.flatMap_def, List.flatMap_def, List.map_map]
    rfl
  rw [hmm]
  exact h

lemma sprintBucketStep_total (st : List (String × List UngroupedEntry) × List UngroupedEntry)
    (item : UngroupedEntry) :
    (sprintPass1Total (sprintBucketStep st item)).Perm (sprintPass1Total st ++ [item]) := by
  unfold sprintBucketStep sprintPass1Total
  by_cases ht : strTruthy ((item.issues.head?).bind (fun i => i.sprint)) = true
  · rw [if_pos ht]
    dsimp only
    cases hget : alGet st.1 ((((item.issues.head?).bind (fun i => i.sprint))).getD "") with
    | some bucket =>
      dsimp only
      have hperm := alSet_flatMap_perm (fun v : List UngroupedEntry => v) hget
        (bucket ++ [item]) rfl
      exact (hperm.append_right _).trans (perm_shuffle_right _ [item] _)
    | none =>
      dsimp only
      rw [List.flatMap_append, List.flatMap_cons]
      show ((st.1.flatMap (fun kv => kv.2) ++ ([item] ++ [])) ++ st.2).Perm _
      rw [List.append_nil]
      exact perm_shuffle_right _ [item] _
  · rw [if_neg ht]
    dsimp only
    rw [← List.append_assoc]

lemma sprintClusterStep_total (sprint : String)
    (st : List CommitGroup × List UngroupedEntry) (cluster : List UngroupedEntry) :
    (sprintGroupsTotal (sprintClusterStep sprint st cluster)).Perm
      (sprintGroupsTotal st ++ cluster.map (fun u => u.commit)) := by
  unfold sprintClusterStep sprintGroupsTotal
  by_cases hl : 2 ≤ cluster.length
  · rw [if_pos hl]
    dsimp only
    rw [List.flatMap_append, List.flatMap_cons]
    show ((st.1.flatMap (fun g => g.commits)
          ++ (cluster.map (fun c : UngroupedEntry => c.commit) ++ []))
        ++ st.2.map (fun u : UngroupedEntry => u.commit)).Perm
      ((st.1.flatMap (fun g => g.commits)
          ++ st.2.map (fun u : UngroupedEntry => u.commit))
        ++ cluster.map (fun u : UngroupedEntry => u.commit))
    rw [List.append_nil]
    exact perm_shuffle_right _ _ _
  · rw [if_neg hl]
    dsimp only
    rw [List.map_append, ← List.append_assoc]

lemma timeClusterLoop_flatten (w : Int) :
    ∀ (rest cur : List UngroupedEntry) (prev : Int),
      (timeClusterLoop w rest cur prev).flatten = cur ++ rest := by
  intro rest
  induction rest with
  | nil =>
    intro cur prev
    simp [timeClusterLoop]
  | cons item rest ih =>
    intro cur prev
    unfold timeClusterLoop
    by_cases hgap : item.commit.timestamp - prev ≤ w
    · rw [if_pos hgap, ih, List.append_assoc]
      rfl
    · rw [if_neg hgap]
      rw [List.flatten_cons, ih]
      rfl

lemma timeClusters_flatten (w : Int) (l : List UngroupedEntry) :
    (timeClusters w l).flatten = l := by
  cases l with
  | nil => rfl
  | cons first rest =>
    unfold timeClusters
    rw [show (timeClusterLoop w rest [first] first.commit.timestamp).flatten
      = [first] ++ rest from timeClusterLoop_flatten w rest [first] _]
    rfl

lemma sprintBucketProcess_total (w : Int) (st : List CommitGroup × List UngroupedEntry)
    (bucket : String × List UngroupedEntry) :
    (sprintGroupsTotal (sprintBucketProcess w st bucket)).Perm
      (sprintGroupsTotal st ++ bucket.2.map (fun u => u.commit)) := by
  unfold sprintBucketProcess
  by_cases hsmall : bucket.2.length < 2
  · rw [if_pos hsmall]
    unfold sprintGroupsTotal
    dsimp only
    rw [List.map_append, ← List.append_assoc]
  · rw [if_neg hsmall]
    dsimp only
    refine (foldl_total_perm (sprintClusterStep bucket.1) sprintGroupsTotal
      (fun cl => cl.map (fun u => u.commit)) (sprintClusterStep_total bucket.1)
      (timeClusters w (stableSortBy
        (fun a b => decide (a.commit.timestamp ≤ b.commit.timestamp)) bucket.2)) st).trans ?_
    refine List.Perm.append_left _ ?_
    rw [List.flatMap_def, ← List.map_join, timeClusters_flatten]
    exact (stableSortBy_perm _ _).map _

lemma groupBySprintAndTime_perm (entries : List UngroupedEntry) (tw : Int) :
    (((groupBySprintAndTime entries tw).groups.flatMap (fun g => g.commits))
      ++ (groupBySprintAndTime entries tw).ungrouped.map (fun u => u.commit)).Perm
      (entries.map (fun u => u.commit)) := by
  unfold groupBySprintAndTime
  have h1 := foldl_total_perm sprintBucketStep sprintPass1Total (fun it => [it])
    sprintBucketStep_total entries ([], [])
  rw [flatMap_singleton_id] at h1
  have h2 := foldl_total_perm (sprintBucketProcess (tw * 24 * 60 * 60 * 1000))
    sprintGroupsTotal (fun b => b.2.map (fun u => u.commit))
    (sprintBucketProcess_total (tw * 24 * 60 * 60 * 1000))
    (entries.foldl sprintBucketStep ([], [])).1
    ([], (entries.foldl sprintBucketStep ([], [])).2)
  dsimp only
  refine ((sort_flatMap_perm _).append_right _).trans ?_
  refine h2.trans ?_
  show (([] : List CommitGroup).flatMap (fun g => g.commits)
      ++ ((entries.foldl sprintBucketStep ([], [])).2).map (fun u => u.commit)
      ++ ((entries.foldl sprintBucketStep ([], [])).1).flatMap
        (fun b => b.2.map (fun u => u.commit))).Perm _
  rw [List.flatMap_nil, List.nil_append]
  have hmap : ((entries.foldl sprintBucketStep ([], [])).1).flatMap
      (fun b => b.2.map (fun u => u.commit))
      = (((entries.foldl sprintBucketStep ([], [])).1).flatMap (fun kv => kv.2)).map
        (fun u => u.commit) := by
    induction (entries.foldl sprintBucketStep ([], [])).1 with
    | nil => rfl
    | cons b rest ih =>
      rw [List.flatMap_cons, List.flatMap_cons, List.map_append, ih]
  rw [hmap]
  refine List.perm_append_comm.trans ?_
  rw [← List.map_append]
  exact h1.map _

/-! ### BFS: structural specification and the component partition -/
/-- The fuelled BFS extends the visited list by exactly the cluster
extension d: its elements are new, pairwise distinct, and each drawn
from the queue or from some adjacency list.  These facts hold for any
fuel, so no termination argument is needed for the conservation and
isolation properties. -/
lemma bfsAux_spec (adj : Nat → List Nat) :
    ∀ (fuel : Nat) (visited queue cluster : List Nat),
      ∃ d, (bfsAux adj fuel visited queue cluster).1 = visited ++ d
        ∧ (bfsAux adj fuel visited queue cluster).2 = cluster ++ d
        ∧ (∀ x ∈ d, x ∉ visited)
        ∧ d.Nodup
        ∧ (∀ x ∈ d, x ∈ queue ∨ ∃ m, x ∈ adj m) := by
  intro fuel
  induction fuel with
  | zero =>
    intro visited queue cluster
    exact ⟨[], by simp [bfsAux], by simp [bfsAux], by simp, List.nodup_nil, by simp⟩
  | succ fuel ih =>
    intro visited queue cluster
    cases queue with
    | nil =>
      exact ⟨[], by simp [bfsAux], by simp [bfsAux], by simp, List.nodup_nil, by simp⟩
    | cons node queue =>
      unfold bfsAux
      by_cases hvis : visited.contains node = true
      · rw [if_pos hvis]
        obtain ⟨d, h1, h2, h3, h4, h5⟩ := ih visited queue cluster
        exact ⟨d, h1, h2, h3, h4, fun x hx => (h5 x hx).elim
          (fun h => Or.inl (List.mem_cons_of_mem _ h)) Or.inr⟩
      · rw [if_neg hvis]
        dsimp only
        obtain ⟨d, h1, h2, h3, h4, h5⟩ := ih (visited ++ [node])
          (queue ++ (adj node).filter (fun nb => !((visited ++ [node]).contains nb)))
          (cluster ++ [node])
        refine ⟨node :: d, ?_, ?_, ?_, ?_, ?_⟩
        · rw [h1, List.append_assoc]
          rfl
        · rw [h2, List.append_assoc]
          rfl
        · intro x hx
          rcases List.mem_cons.mp hx with rfl | hx
          · intro hc
            exact hvis (by simpa [List.elem_iff] using hc)
          · intro hc
            exact h3 x hx (List.mem_append_left _ hc)
        · refine List.Nodup.cons ?_ h4
          intro hc
          exact h3 node hc (List.mem_append_right _ (List.mem_singleton.mpr rfl))
        · intro x hx
          rcases List.mem_cons.mp hx with rfl | hx
          · exact Or.inl (List.mem_cons_self _ _)
          · rcases h5 x hx with hq | hadj
            · rcases List.mem_append.mp hq with hq | hq
              · exact Or.inl (List.mem_cons_of_mem _ hq)
              · exact Or.inr ⟨node, List.mem_of_mem_filter hq⟩
            · exact Or.inr hadj

/-- A BFS started at an unvisited node marks it: with at least one
unit of fuel the start node enters the visited set and heads the
cluster. -/
lemma bfsAux_start (adj : Nat → List Nat) (F : Nat) (visited : List Nat) (i : Nat)
    (hF : 1 ≤ F) (hnv : ¬ visited.contains i = true) :
    ∃ d, (bfsAux adj F visited [i] []).1 = visited ++ i :: d
      ∧ (bfsAux adj F visited [i] []).2 = i :: d
      ∧ (∀ x ∈ d, x ∉ visited) ∧ (i :: d).Nodup
      ∧ (∀ x ∈ d, x = i ∨ ∃ m, x ∈ adj m) := by
  cases F with
  | zero => omega
  | succ F =>
    unfold bfsAux
    rw [if_neg hnv]
    dsimp only
    obtain ⟨d, h1, h2, h3, h4, h5⟩ := bfsAux_spec adj F (visited ++ [i])
      ([] ++ (adj i).filter (fun nb => !((visited ++ [i]).contains nb))) ([] ++ [i])
    refine ⟨d, ?_, ?_, ?_, ?_, ?_⟩
    · rw [h1, List.append_assoc]
      rfl
    · rw [h2]
      rfl
    · intro x hx
      intro hc
      exact h3 x hx (List.mem_append_left _ hc)
    · refine List.Nodup.cons ?_ h4
      intro hc
      exact h3 i hc (List.mem_append_right _ (List.mem_singleton.mpr rfl))
    · intro x hx
      rcases h5 x hx with hq | hadj
      · rw [List.nil_append] at hq
        exact Or.inr ⟨i, List.mem_of_mem_filter hq⟩
      · exact Or.inr hadj

/-- A BFS started at an unvisited node with an empty adjacency list
returns the singleton cluster. -/
lemma bfsAux_isolated (adj : Nat → List Nat) (F : Nat) (visited : List Nat) (e : Nat)
    (hF : 1 ≤ F) (hnv : ¬ visited.contains e = true) (hadj : adj e = []) :
    (bfsAux adj F visited [e] []).2 = [e] := by
  cases F with
  | zero => omega
  | succ F =>
    unfold bfsAux
    rw [if_neg hnv]
    dsimp only
    rw [hadj]
    cases F <;> rfl

lemma connectedComponents_eq_fold (commits : List Commit) (τ : ℚ) :
    connectedComponents commits τ
      = ((List.range commits.length).foldl
          (componentStep (overlapNeighbors commits τ)
            ((commits.length + 2) * (commits.length + 2))) ([], [])).2 := rfl

/-- Invariants of the component fold: the clusters flatten to the
visited list, which is duplicate-free, bounded by the processed
universe, and covers every processed index; and every cluster
containing an index that is isolated (no neighbors, nobody's
neighbor) is exactly that singleton. -/
lemma componentsFold_spec (adj : Nat → List Nat) (F : Nat) (hF : 1 ≤ F)
    (n : Nat) (hadjlt : ∀ i x, x ∈ adj i → x < n) :
    ∀ (idxs : List Nat) (st : List Nat × List (List Nat)),
      st.2.flatten = st.1 → st.1.Nodup → (∀ x ∈ st.1, x < n) → (∀ x ∈ idxs, x < n) →
      ((idxs.foldl (componentStep adj F) st).2.flatten
          = (idxs.foldl (componentStep adj F) st).1
        ∧ (idxs.foldl (componentStep adj F) st).1.Nodup
        ∧ (∀ x ∈ (idxs.foldl (componentStep adj F) st).1, x < n)
        ∧ (∀ j ∈ idxs, j ∈ (idxs.foldl (componentStep adj F) st).1)
        ∧ (∀ x ∈ st.1, x ∈ (idxs.foldl (componentStep adj F) st).1)) := by
  intro idxs
  induction idxs with
  | nil =>
    intro st hflat hnd hlt _
    exact ⟨hflat, hnd, hlt, by simp, fun x hx => hx⟩
  | cons i idxs ih =>
    intro st hflat hnd hlt hidxs
    rw [List.foldl_cons]
    by_cases hvis : st.1.contains i = true
    · have hstep : componentStep adj F st i = st := by
        unfold componentStep
        rw [if_pos hvis]
      rw [hstep]
      obtain ⟨a, b, c, d, e⟩ := ih st hflat hnd hlt (fun x hx => hidxs x (List.mem_cons_of_mem _ hx))
      refine ⟨a, b, c, ?_, e⟩
      intro j hj
      rcases List.mem_cons.mp hj with rfl | hj
      · exact e j (by simpa [List.elem_iff] using hvis)
      · exact d j hj
    · obtain ⟨d0, h1, h2, h3, h4, h5⟩ := bfsAux_start adj F st.1 i hF hvis
      have hstep : componentStep adj F st i
          = ((bfsAux adj F st.1 [i] []).1, st.2 ++ [(bfsAux adj F st.1 [i] []).2]) := by
        unfold componentStep
        rw [if_neg hvis]
      rw [hstep]
      have hflat1 : (st.2 ++ [(bfsAux adj F st.1 [i] []).2]).flatten
          = (bfsAux adj F st.1 [i] []).1 := by
        rw [List.flatten_append, hflat, h1, h2]
        simp
      have hinotmem : i ∉ st.1 := by
        intro hc
        exact hvis (by simpa [List.elem_iff] using hc)
      have hnd1 : (bfsAux adj F st.1 [i] []).1.Nodup := by
        rw [h1, List.nodup_append]
        refine ⟨hnd, h4, ?_⟩
        intro x hx hxc
        rcases List.mem_cons.mp hxc with rfl | hxd
        · exact hinotmem hx
        · exact h3 x hxd hx
      have hlt1 : ∀ x ∈ (bfsAux adj F st.1 [i] []).1, x < n := by
        intro x hx
        rw [h1] at hx
        rcases List.mem_append.mp hx with hx | hx
        · exact hlt x hx
        · rcases List.mem_cons.mp hx with rfl | hx
          · exact hidxs x (List.mem_cons_self _ _)
          · rcases h5 x hx with rfl | ⟨m, hm⟩
            · exact hidxs x (List.mem_cons_self _ _)
            · exact hadjlt m x hm
      obtain ⟨a, b, c, d, e⟩ := ih ((bfsAux adj F st.1 [i] []).1,
          st.2 ++ [(bfsAux adj F st.1 [i] []).2]) hflat1 hnd1 hlt1
          (fun x hx => hidxs x (List.mem_cons_of_mem _ hx))
      refine ⟨a, b, c, ?_, ?_⟩
      · intro j hj
        rcases List.mem_cons.mp hj with rfl | hj
        · refine e j ?_
          rw [h1]
          exact List.mem_append_right _ (List.mem_cons_self _ _)
        · exact d j hj
      · intro x hx
        refine e x ?_
        rw [h1]
        exact List.mem_append_left _ hx

lemma overlapNeighbors_lt (commits : List Commit) (τ : ℚ) :
    ∀ i x, x ∈ overlapNeighbors commits τ i → x < commits.length := by
  intro i x hx
  unfold overlapNeighbors at hx
  exact List.mem_range.mp (List.mem_of_mem_filter hx)

lemma components_fuel_pos (n : Nat) : 1 ≤ (n + 2) * (n + 2) := by
  nlinarith

lemma connectedComponents_flatten_perm (commits : List Commit) (τ : ℚ) :
    ((connectedComponents commits τ).flatten).Perm (List.range commits.length) := by
  rw [connectedComponents_eq_fold]
  obtain ⟨a, b, c, d, _⟩ := componentsFold_spec (overlapNeighbors commits τ)
    ((commits.length + 2) * (commits.length + 2)) (components_fuel_pos _)
    commits.length (overlapNeighbors_lt commits τ)
    (List.range commits.length) ([], []) rfl List.nodup_nil (by simp)
    (fun x hx => List.mem_range.mp hx)
  rw [a]
  refine List.Subperm.antisymm ?_ ?_
  · exact b.subperm (fun x hx => List.mem_range.mpr (c x hx))
  · exact (List.nodup_range _).subperm (fun j hj => d j hj)

lemma connectedComponents_isolated (commits : List Commit) (τ : ℚ) (e : Nat)
    (hadj : overlapNeighbors commits τ e = [])
    (hnm : ∀ m, e ∉ overlapNeighbors commits τ m) :
    ∀ cl ∈ connectedComponents commits τ, e ∈ cl → cl = [e] := by
  rw [connectedComponents_eq_fold]
  have main : ∀ (idxs : List Nat) (st : List Nat × List (List Nat)),
      (∀ cl ∈ st.2, e ∈ cl → cl = [e]) →
      ∀ cl ∈ (idxs.foldl (componentStep (overlapNeighbors commits τ)
          ((commits.length + 2) * (commits.length + 2))) st).2, e ∈ cl → cl = [e] := by
    intro idxs
    induction idxs with
    | nil =>
      intro st h
      exact h
    | cons i idxs ih =>
      intro st h
      rw [List.foldl_cons]
      by_cases hvis : st.1.contains i = true
      · have hstep : componentStep (overlapNeighbors commits τ)
            ((commits.length + 2) * (commits.length + 2)) st i = st := by
          unfold componentStep
          rw [if_pos hvis]
        rw [hstep]
        exact ih st h
      · have hstep : componentStep (overlapNeighbors commits τ)
            ((commits.length + 2) * (commits.length + 2)) st i
            = ((bfsAux (overlapNeighbors commits τ)
                ((commits.length + 2) * (commits.length + 2)) st.1 [i] []).1,
               st.2 ++ [(bfsAux (overlapNeighbors commits τ)
                ((commits.length + 2) * (commits.length + 2)) st.1 [i] []).2]) := by
          unfold componentStep
          rw [if_neg hvis]
        rw [hstep]
        apply ih
        intro cl hcl hecl
        rcases List.mem_append.mp hcl with hcl | hcl
        · exact h cl hcl hecl
        · have hcl1 : cl = (bfsAux (overlapNeighbors commits τ)
              ((commits.length + 2) * (commits.length + 2)) st.1 [i] []).2 := by
            simpa using hcl
          subst hcl1
          by_cases hie : i = e
          · subst hie
            exact bfsAux_isolated _ _ st.1 i (components_fuel_pos _) hvis hadj
          · obtain ⟨d0, h1, h2, h3, h4, h5⟩ := bfsAux_start (overlapNeighbors commits τ)
              ((commits.length + 2) * (commits.length + 2)) st.1 i
              (components_fuel_pos _) hvis
            rw [h2] at hecl
            rcases List.mem_cons.mp hecl with he | hed
            · exact absurd he.symm hie
            · rcases h5 e hed with he | ⟨m, hm⟩
              · exact absurd he.symm hie
              · exact absurd hm (hnm m)
  exact main (List.range commits.length) ([], []) (by simp)

lemma fileClusterStep_total (commits : List Commit) (st : List CommitGroup × List Commit)
    (cluster : List Nat) :
    (groupsTotal (fileClusterStep commits st cluster)).Perm
      (groupsTotal st ++ cluster.map (commitAt commits)) := by
  unfold fileClusterStep groupsTotal
  by_cases hl : 2 ≤ cluster.length
  · rw [if_pos hl]
    dsimp only
    rw [List.flatMap_append, List.flatMap_cons]
    show ((st.1.flatMap (fun g => g.commits) ++ (cluster.map (commitAt commits) ++ []))
        ++ st.2).Perm _
    rw [List.append_nil]
    exact perm_shuffle_right _ _ _
  · rw [if_neg hl]
    cases cluster with
    | nil =>
      dsimp only
      rw [List.map_nil, List.append_nil]
    | cons i rest =>
      cases rest with
      | nil =>
        dsimp only
        rw [← List.append_assoc]
        exact List.Perm.refl _
      | cons j rest2 =>
        exact absurd (by simp) hl

lemma range_map_commitAt (commits : List Commit) :
    (List.range commits.length).map (commitAt commits) = commits := by
  apply List.ext_getElem
  · simp
  · intro i h1 h2
    rw [List.getElem_map, List.getElem_range]
    unfold commitAt
    rw [List.getElem?_eq_getElem h2]

lemma groupByFileOverlap_perm (commits : List Commit) (τ : ℚ) :
    (((groupByFileOverlap commits τ).groups.flatMap (fun g => g.commits))
      ++ (groupByFileOverlap commits τ).ungrouped).Perm commits := by
  unfold groupByFileOverlap
  by_cases hsmall : commits.length < 2
  · rw [if_pos hsmall]
    simp
  · rw [if_neg hsmall]
    dsimp only
    refine ((sort_flatMap_perm _).append_right _).trans ?_
    refine (foldl_total_perm (fileClusterStep commits) groupsTotal
      (fun cl => cl.map (commitAt commits)) (fileClusterStep_total commits)
      (connectedComponents commits τ) ([], [])).trans ?_
    show (([] : List CommitGroup).flatMap (fun g => g.commits) ++ []
        ++ (connectedComponents commits τ).flatMap
          (fun cl => cl.map (commitAt commits))).Perm commits
    rw [List.flatMap_nil, List.nil_append, List.nil_append]
    rw [List.flatMap_def, ← List.map_join]
    rw [show ((connectedComponents commits τ).flatten.map (commitAt commits)).Perm commits
        ↔ True from iff_true_intro ?_]
    · trivial
    · refine ((connectedComponents_flatten_perm commits τ).map (commitAt commits)).trans ?_
      rw [range_map_commitAt]

/-! ### Conservation through the whole pipeline, and claim C1 -/
lemma groupCommitsMultiSignal_perm (commits : List Commit)
    (jiraCache : List (String × JiraIssue)) (prCache : List (String × GitHubPR))
    (tw : Int) (τ : ℚ) :
    (((groupCommitsMultiSignal commits jiraCache prCache tw τ).groups.flatMap
        (fun g => g.commits))
      ++ (groupCommitsMultiSignal commits jiraCache prCache tw τ).ungroupedCommits.map
        (fun u => u.commit)).Perm commits := by
  unfold groupCommitsMultiSignal
  dsimp only
  have hfinalmap : ∀ (spr : SprintResult) (l : List Commit),
      (l.map (fun commit =>
        match spr.ungrouped.find? (fun u => u.commit.hash == commit.hash) with
        | some original => ({ commit := commit, issues := original.issues } : UngroupedEntry)
        | none => { commit := commit, issues := [] })).map
          (fun u : UngroupedEntry => u.commit) = l := by
    intro spr l
    induction l with
    | nil => rfl
    | cons c l ih =>
      rw [List.map_cons, List.map_cons, ih]
      congr 1
      cases spr.ungrouped.find? (fun u => u.commit.hash == c.hash) <;> rfl
  rw [hfinalmap]
  rw [List.flatMap_append, List.flatMap_append, List.flatMap_append]
  have hT1 : (((if 0 < prCache.length then groupByPR commits prCache
        else { groups := [], ungrouped := commits } : PRResult).groups.flatMap
          (fun g => g.commits))
      ++ (if 0 < prCache.length then groupByPR commits prCache
        else { groups := [], ungrouped := commits } : PRResult).ungrouped).Perm commits := by
    by_cases hpr : 0 < prCache.length
    · rw [if_pos hpr]
      exact groupByPR_perm commits prCache
    · rw [if_neg hpr]
      simp
  rw [List.append_assoc, List.append_assoc, List.append_assoc]
  exact (List.Perm.append_left _ ((List.Perm.append_left _
    ((List.Perm.append_left _ (groupByFileOverlap_perm _ τ)).trans
      (groupBySprintAndTime_perm _ tw))).trans
    (groupCommitsByFeature_perm _ jiraCache none))).trans hT1

lemma countP_flatMap {α β : Type} (p : β → Bool) (f : α → List β) (L : List α) :
    (L.flatMap f).countP p = (L.map (fun a => (f a).countP p)).sum := by
  induction L with
  | nil => rfl
  | cons a L ih =>
    rw [List.flatMap_cons, List.countP_append, ih]
    rfl

/-- Claim C1: with pairwise-distinct commit hashes, the tiered
pipeline's groups have pairwise-disjoint member hash sets, and every
input commit appears in exactly one place overall (counting
multiplicity): either inside exactly one group's member list or in the
ungrouped remainder. -/
theorem C1_partition (commits : List Commit) (jiraCache : List (String × JiraIssue))
    (prCache : List (String × GitHubPR)) (tw : Int) (τ : ℚ)
    (hnd : (commits.map (fun c => c.hash)).Nodup) :
    ((groupCommitsMultiSignal commits jiraCache prCache tw τ).groups.Pairwise
      (fun g1 g2 => ∀ h, h ∈ g1.commits.map (fun c => c.hash)
        → h ∉ g2.commits.map (fun c => c.hash)))
    ∧ (∀ c ∈ commits,
        (((groupCommitsMultiSignal commits jiraCache prCache tw τ).groups.map
          (fun g => (g.commits.filter (fun d => d.hash == c.hash)).length)).sum)
        + (((groupCommitsMultiSignal commits jiraCache prCache tw τ).ungroupedCommits.filter
          (fun u => u.commit.hash == c.hash)).length) = 1) := by
  have hperm := groupCommitsMultiSignal_perm commits jiraCache prCache tw τ
  have hndT : ((((groupCommitsMultiSignal commits jiraCache prCache tw τ).groups.flatMap
        (fun g => g.commits))
      ++ (groupCommitsMultiSignal commits jiraCache prCache tw τ).ungroupedCommits.map
        (fun u => u.commit)).map (fun c => c.hash)).Nodup :=
    ((hperm.map (fun c => c.hash)).nodup_iff).mpr hnd
  constructor
  · rw [List.map_append, List.map_flatMap] at hndT
    have hleft := (List.nodup_append.mp hndT).1
    have hflat : ((groupCommitsMultiSignal commits jiraCache prCache tw τ).groups.flatMap
        (fun g => g.commits.map (fun c => c.hash)))
        = ((groupCommitsMultiSignal commits jiraCache prCache tw τ).groups.map
          (fun g => g.commits.map (fun c => c.hash))).flatten := List.flatMap_def _ _
    rw [hflat] at hleft
    have hpair := (List.nodup_flatten.mp hleft).2
    rw [List.pairwise_map] at hpair
    exact hpair.imp (fun hd => hd)
  · intro c hc
    have hcount := hperm.countP_eq (fun d => d.hash == c.hash)
    have hone : commits.countP (fun d => d.hash == c.hash) = 1 := by
      have hmem : c.hash ∈ commits.map (fun d => d.hash) := List.mem_map.mpr ⟨c, hc, rfl⟩
      have h1 := List.count_eq_one_of_mem hnd hmem
      rw [count_map_eq_countP] at h1
      rw [← h1]
      apply List.countP_congr
      intro d _
      constructor <;> intro h <;> simpa using h
    rw [hone] at hcount
    rw [List.countP_append, countP_flatMap, List.countP_map] at hcount
    simp only [Function.comp_def] at hcount
    simp only [← List.countP_eq_length_filter]
    exact hcount

/-- Witness for C1 on a concrete input with two distinct hashes, one
PR group: commit a appears in exactly one place. -/
theorem C1_witness :
    (((groupCommitsMultiSignal
        [{ hash := "a", message := "m", author := "x", email := "e", timestamp := 0 },
         { hash := "b", message := "m", author := "x", email := "e", timestamp := 0 }]
        [] [("a", { number := 5, title := "T", description := "", state := "open" }),
            ("b", { number := 5, title := "T", description := "", state := "open" })]
        7 (mkRat 1 2)).groups.map (fun g =>
          (g.commits.filter (fun d => d.hash == "a")).length)).sum)
      + (((groupCommitsMultiSignal
        [{ hash := "a", message := "m", author := "x", email := "e", timestamp := 0 },
         { hash := "b", message := "m", author := "x", email := "e", timestamp := 0 }]
        [] [("a", { number := 5, title := "T", description := "", state := "open" }),
            ("b", { number := 5, title := "T", description := "", state := "open" })]
        7 (mkRat 1 2)).ungroupedCommits.filter
          (fun u => u.commit.hash == "a")).length) = 1 :=
  (C1_partition
    [{ hash := "a", message := "m", author := "x", email := "e", timestamp := 0 },
     { hash := "b", message := "m", author := "x", email := "e", timestamp := 0 }]
    [] [("a", { number := 5, title := "T", description := "", state := "open" }),
        ("b", { number := 5, title := "T", description := "", state := "open" })]
    7 (mkRat 1 2) (by decide)).2
    { hash := "a", message := "m", author := "x", email := "e", timestamp := 0 }
    (by decide)

/-! ### Shapes of the groups each tier can produce -/
/-- Generic fold principle: every group in the final state was in the
initial state or was contributed by some step. -/
lemma foldl_groups_prop {σ α : Type} (step : σ → α → σ) (proj : σ → List CommitGroup)
    (P : CommitGroup → Prop)
    (hstep : ∀ st a g, g ∈ proj (step st a) → g ∈ proj st ∨ P g) :
    ∀ (l : List α) (st : σ), ∀ g ∈ proj (l.foldl step st), g ∈ proj st ∨ P g := by
  intro l
  induction l with
  | nil =>
    intro st g hg
    exact Or.inl hg
  | cons a l ih =>
    intro st g hg
    rw [List.foldl_cons] at hg
    rcases ih (step st a) g hg with hg' | hp
    · exact hstep st a g hg'
    · exact Or.inr hp

lemma prBucket_foldl :
    ∀ (buckets : List (Nat × GitHubPR × List Commit)) (G : List CommitGroup)
      (U : List Commit),
      buckets.foldl prBucketStep (G, U)
        = (G ++ (buckets.filter (fun b => decide (2 ≤ b.2.2.length))).map mkPRGroup,
           U ++ (buckets.filter (fun b => !decide (2 ≤ b.2.2.length))).flatMap
             (fun b => b.2.2)) := by
  intro buckets
  induction buckets with
  | nil =>
    intro G U
    simp
  | cons b buckets ih =>
    intro G U
    rw [List.foldl_cons]
    by_cases hb : 2 ≤ b.2.2.length
    · have hstep : prBucketStep (G, U) b = (G ++ [mkPRGroup b], U) := by
        unfold prBucketStep mkPRGroup
        rw [if_pos hb]
      rw [hstep, ih]
      rw [List.filter_cons_of_pos (by simpa using hb),
        List.filter_cons_of_neg (by simpa using hb), List.map_cons]
      simp
    · have hstep : prBucketStep (G, U) b = (G, U ++ b.2.2) := by
        unfold prBucketStep
        rw [if_neg hb]
      rw [hstep, ih]
      rw [List.filter_cons_of_neg (by simpa using hb),
        List.filter_cons_of_pos (by simpa using hb), List.flatMap_cons]
      simp

/-- Every group produced by the PR tier is a bucket group: type pr,
at least 2 member commits. -/
lemma groupByPR_groups_shape (commits : List Commit) (prCache : List (String × GitHubPR)) :
    ∀ g ∈ (groupByPR commits prCache).groups,
      ∃ b, g = mkPRGroup b ∧ 2 ≤ b.2.2.length
        ∧ b ∈ (commits.foldl (prStep prCache) ([], [])).1 := by
  intro g hg
  unfold groupByPR at hg
  rw [mem_sortByCommitCountDesc] at hg
  rw [prBucket_foldl] at hg
  rw [List.nil_append] at hg
  rcases List.mem_map.mp hg with ⟨b, hb, rfl⟩
  rcases List.mem_filter.mp hb with ⟨hbmem, hblen⟩
  exact ⟨b, rfl, by simpa using hblen, hbmem⟩

lemma alGet_none_not_mem {κ α : Type} [BEq κ] [LawfulBEq κ] {l : List (κ × α)} {k : κ}
    (h : alGet l k = none) : k ∉ l.map (fun kv => kv.1) := by
  induction l with
  | nil => simp
  | cons kw rest ih =>
    unfold alGet at h
    by_cases hk : kw.1 == k
    · rw [if_pos hk] at h
      exact absurd h (by simp)
    · rw [if_neg hk] at h
      simp only [List.map_cons, List.mem_cons]
      rintro (h' | h')
      · exact hk (by simp [h'])
      · exact ih h h'

/-- With pairwise-distinct keys, a member of `alSet l k v` is either an
untouched entry at a different key or exactly the new pair. -/
lemma mem_alSet_cases {κ α : Type} [BEq κ] [LawfulBEq κ] {l : List (κ × α)} {k : κ} {v : α}
    {kv : κ × α} (hnd : (l.map (fun kv => kv.1)).Nodup)
    (h : kv ∈ alSet l k v) : (kv ∈ l ∧ kv.1 ≠ k) ∨ kv = (k, v) := by
  induction l with
  | nil =>
    right
    simpa [alSet] using h
  | cons kw rest ih =>
    rw [List.map_cons, List.nodup_cons] at hnd
    unfold alSet at h
    by_cases hk : kw.1 == k
    · rw [if_pos hk] at h
      have hkk : kw.1 = k := by simpa using hk
      rcases List.mem_cons.mp h with h' | h'
      · right
        rw [h', hkk]
      · left
        refine ⟨List.mem_cons_of_mem _ h', ?_⟩
        intro heq
        exact hnd.1 (by rw [hkk, ← heq]; exact List.mem_map.mpr ⟨kv, h', rfl⟩)
    · rw [if_neg hk] at h
      rcases List.mem_cons.mp h with h' | h'
      · left
        subst h'
        exact ⟨List.mem_cons_self _ _, fun heq => hk (beq_iff_eq.mpr heq)⟩
      · rcases ih hnd.2 h' with ⟨hm, hne⟩ | he
        · exact Or.inl ⟨List.mem_cons_of_mem _ hm, hne⟩
        · exact Or.inr he

lemma placeInEpic_inv (st : List (String × CommitGroup) × List UngroupedEntry)
    (c : Commit) (issues : List JiraIssue) (ek : Option String) (nm : String)
    (h : featureMapInv st) : featureMapInv (placeInEpic st c issues ek nm) := by
  unfold placeInEpic
  by_cases ht : strTruthy ek
  · rw [if_pos ht]
    dsimp only
    cases hget : alGet st.1 (ek.getD "") with
    | some group =>
      constructor
      · rw [alSet_keys_of_present (by rw [hget]; rfl)]
        exact h.1
      · intro kv hkv
        rcases mem_alSet_cases h.1 hkv with ⟨hm, _⟩ | he
        · exact h.2 kv hm
        · have hgm := h.2 (ek.getD "", group) (alGet_mem hget)
          rw [he]
          exact ⟨hgm.1, hgm.2⟩
    | none =>
      rw [alSet_of_absent _ hget]
      constructor
      · rw [List.map_append]
        refine List.Nodup.append h.1 (by simp) ?_
        intro a ha hb
        simp only [List.map_cons, List.map_nil, List.mem_singleton] at hb
        rw [hb] at ha
        exact alGet_none_not_mem hget ha
      · intro kv hkv
        rcases List.mem_append.mp hkv with hm | he
        · exact h.2 kv hm
        · rw [List.mem_singleton] at he
          rw [he]
          exact ⟨rfl, rfl⟩
  · rw [if_neg ht]
    exact ⟨h.1, fun kv hkv => h.2 kv hkv⟩

lemma featureStep_inv (jiraCache : List (String × JiraIssue))
    (epicInfo : List (String × String))
    (overrides : Option (List (String × Option String)))
    (st : List (String × CommitGroup) × List UngroupedEntry) (c : Commit)
    (h : featureMapInv st) :
    featureMapInv (featureStep jiraCache epicInfo overrides st c) := by
  unfold featureStep
  dsimp only
  cases (match overrides with | some m => alGet m c.hash | none => none) with
  | none => exact placeInEpic_inv _ _ _ _ _ h
  | some o =>
    cases o with
    | none => exact ⟨h.1, fun kv hkv => h.2 kv hkv⟩
    | some overrideKey => exact placeInEpic_inv _ _ _ _ _ h

lemma featureFold_inv (jiraCache : List (String × JiraIssue))
    (epicInfo : List (String × String))
    (overrides : Option (List (String × Option String))) :
    ∀ (cs : List Commit) (st : List (String × CommitGroup) × List UngroupedEntry),
      featureMapInv st →
      featureMapInv (cs.foldl (featureStep jiraCache epicInfo overrides) st) := by
  intro cs
  induction cs with
  | nil => exact fun st h => h
  | cons c cs ih =>
    intro st h
    rw [List.foldl_cons]
    exact ih _ (featureStep_inv jiraCache epicInfo overrides st c h)

/-- Every group of the epic tier has type epic. -/
lemma groupCommitsByFeature_groups_epic (commits : List Commit)
    (jiraCache : List (String × JiraIssue))
    (overrides : Option (List (String × Option String))) :
    ∀ g ∈ (groupCommitsByFeature commits jiraCache overrides).groups,
      g.groupType = "epic" := by
  intro g hg
  unfold groupCommitsByFeature at hg
  rw [mem_sortByCommitCountDesc] at hg
  rcases List.mem_map.mp hg with ⟨kv, hkv, rfl⟩
  exact ((featureFold_inv jiraCache _ overrides commits ([], [])
    ⟨List.nodup_nil, by simp⟩).2 kv hkv).2

/-- The groupKey strings of the epic tier's groups are pairwise
distinct: they are the keys of the epic association map. -/
lemma groupCommitsByFeature_keys_nodup (commits : List Commit)
    (jiraCache : List (String × JiraIssue))
    (overrides : Option (List (String × Option String))) :
    (((groupCommitsByFeature commits jiraCache overrides).groups).map
      (fun g => g.groupKey)).Nodup := by
  unfold groupCommitsByFeature
  dsimp only
  have hinv := featureFold_inv jiraCache (buildEpicInfo jiraCache commits) overrides
    commits ([], []) ⟨List.nodup_nil, by simp⟩
  refine ((sortByCommitCountDesc_perm _).map (fun g => g.groupKey)).nodup_iff.mpr ?_
  rw [List.map_map]
  have hkeys : (commits.foldl
        (featureStep jiraCache (buildEpicInfo jiraCache commits) overrides)
        ([], [])).1.map ((fun g => g.groupKey) ∘ (fun kv => kv.2))
      = (commits.foldl
        (featureStep jiraCache (buildEpicInfo jiraCache commits) overrides)
        ([], [])).1.map (fun kv => kv.1) := by
    apply List.map_congr_left
    intro kv hkv
    exact (hinv.2 kv hkv).1
  rw [hkeys]
  exact hinv.1

/-- Every group of the sprint tier has type sprint and at least 2
member commits. -/
lemma groupBySprintAndTime_groups_shape (commits : List UngroupedEntry) (w : Int) :
    ∀ g ∈ (groupBySprintAndTime commits w).groups,
      g.groupType = "sprint" ∧ 2 ≤ g.commits.length := by
  intro g hg
  unfold groupBySprintAndTime at hg
  rw [mem_sortByCommitCountDesc] at hg
  have hinner : ∀ (sprint : String) (st : List CommitGroup × List UngroupedEntry)
      (cl : List UngroupedEntry) (g2 : CommitGroup),
      g2 ∈ (sprintClusterStep sprint st cl).1 →
      g2 ∈ st.1 ∨ (g2.groupType = "sprint" ∧ 2 ≤ g2.commits.length) := by
    intro sprint st2 cl g2 hg2
    unfold sprintClusterStep at hg2
    by_cases hcl : 2 ≤ cl.length
    · rw [if_pos hcl] at hg2
      rcases List.mem_append.mp hg2 with h' | h'
      · exact Or.inl h'
      · right
        rw [List.mem_singleton] at h'
        rw [h']
        exact ⟨rfl, by simpa using hcl⟩
    · rw [if_neg hcl] at hg2
      exact Or.inl hg2
  have hstep : ∀ (st : List CommitGroup × List UngroupedEntry)
      (b : String × List UngroupedEntry) (g2 : CommitGroup),
      g2 ∈ (sprintBucketProcess (w * 24 * 60 * 60 * 1000) st b).1 →
      g2 ∈ st.1 ∨ (g2.groupType = "sprint" ∧ 2 ≤ g2.commits.length) := by
    intro st b g2 hg2
    unfold sprintBucketProcess at hg2
    by_cases hsmall : b.2.length < 2
    · rw [if_pos hsmall] at hg2
      exact Or.inl hg2
    · rw [if_neg hsmall] at hg2
      exact foldl_groups_prop (sprintClusterStep b.1) (fun st => st.1) _
        (fun st a g hg => hinner b.1 st a g hg) _ st g2 hg2
  rcases foldl_groups_prop (sprintBucketProcess (w * 24 * 60 * 60 * 1000))
      (fun st => st.1) _ hstep _ _ g hg with h0 | hp
  · exact absurd h0 (List.not_mem_nil g)
  · exact hp

/-- Every group of the file-overlap tier has type file-overlap and at
least 2 member commits. -/
lemma groupByFileOverlap_groups_shape (commits : List Commit) (τ : ℚ) :
    ∀ g ∈ (groupByFileOverlap commits τ).groups,
      g.groupType = "file-overlap" ∧ 2 ≤ g.commits.length := by
  intro g hg
  unfold groupByFileOverlap at hg
  by_cases hsmall : commits.length < 2
  · rw [if_pos hsmall] at hg
    exact absurd hg (List.not_mem_nil g)
  · rw [if_neg hsmall] at hg
    rw [mem_sortByCommitCountDesc] at hg
    have hstep : ∀ (st : List CommitGroup × List Commit) (cl : List Nat)
        (g2 : CommitGroup), g2 ∈ (fileClusterStep commits st cl).1 →
        g2 ∈ st.1 ∨ (g2.groupType = "file-overlap" ∧ 2 ≤ g2.commits.length) := by
      intro st cl g2 hg2
      unfold fileClusterStep at hg2
      by_cases hcl : 2 ≤ cl.length
      · rw [if_pos hcl] at hg2
        rcases List.mem_append.mp hg2 with h' | h'
        · exact Or.inl h'
        · right
          rw [List.mem_singleton] at h'
          rw [h']
          exact ⟨rfl, by simpa using hcl⟩
      · rw [if_neg hcl] at hg2
        cases cl with
        | nil => exact Or.inl hg2
        | cons i rest => exact Or.inl hg2
    rcases foldl_groups_prop (fileClusterStep commits) (fun st => st.1) _ hstep _ _ g hg
      with h0 | hp
    · exact absurd h0 (List.not_mem_nil g)
    · exact hp

/-- Every group of the PR tier has type pr and at least 2 member
commits. -/
lemma groupByPR_groups_typed (commits : List Commit)
    (prCache : List (String × GitHubPR)) :
    ∀ g ∈ (groupByPR commits prCache).groups,
      g.groupType = "pr" ∧ 2 ≤ g.commits.length := by
  intro g hg
  rcases groupByPR_groups_shape commits prCache g hg with ⟨b, rfl, hlen, _⟩
  exact ⟨rfl, hlen⟩

lemma multiSignal_groups_eq (commits : List Commit)
    (jiraCache : List (String × JiraIssue)) (prCache : List (String × GitHubPR))
    (tw : Int) (τ : ℚ) :
    (groupCommitsMultiSignal commits jiraCache prCache tw τ).groups
      = (msTier1 commits prCache).groups
        ++ (msFeat commits jiraCache prCache).groups
        ++ (msSprint commits jiraCache prCache tw).groups
        ++ (msFile commits jiraCache prCache tw τ).groups := rfl

/-- C2: refuted as stated — the epic tier has no minimum-size check, so
a single commit resolving to an epic produces a 1-commit epic group.
Input hashes are pairwise distinct, yet the result's group sizes are
exactly [1]. -/
theorem C2_counterexample :
    (([{ hash := "c1", message := "AB-1 x", author := "x", email := "e",
         timestamp := 0 }].map (fun c : Commit => c.hash)).Nodup)
    ∧ ((groupCommitsMultiSignal
        [{ hash := "c1", message := "AB-1 x", author := "x", email := "e",
           timestamp := 0 }]
        [("AB-1", { key := "AB-1", summary := "s", issueType := "t", status := "st",
                    epicKey := some "E" })] [] 7 (mkRat 1 2)).groups.map
      (fun g => g.commits.length)) = [1] := by
  constructor
  · decide
  · decide

/-- C2 (amended): every returned group that is not of type epic has at
least 2 member commits, and no commit is lost or duplicated: the
member commits of all groups together with the ungrouped remainder are
a permutation of the input. -/
theorem C2_amended_min_size (commits : List Commit)
    (jiraCache : List (String × JiraIssue)) (prCache : List (String × GitHubPR))
    (tw : Int) (τ : ℚ) :
    (∀ g ∈ (groupCommitsMultiSignal commits jiraCache prCache tw τ).groups,
        g.groupType ≠ "epic" → 2 ≤ g.commits.length)
    ∧ (((groupCommitsMultiSignal commits jiraCache prCache tw τ).groups.flatMap
          (fun g => g.commits))
        ++ (groupCommitsMultiSignal commits jiraCache prCache tw τ).ungroupedCommits.map
          (fun u => u.commit)).Perm commits := by
  refine ⟨?_, groupCommitsMultiSignal_perm commits jiraCache prCache tw τ⟩
  intro g hg hne
  rw [multiSignal_groups_eq] at hg
  rcases List.mem_append.mp hg with hg' | hfi
  · rcases List.mem_append.mp hg' with hg'' | hsp
    · rcases List.mem_append.mp hg'' with ht1 | hft
      · unfold msTier1 at ht1
        by_cases hpc : 0 < prCache.length
        · rw [if_pos hpc] at ht1
          exact (groupByPR_groups_typed commits prCache g ht1).2
        · rw [if_neg hpc] at ht1
          exact absurd ht1 (List.not_mem_nil g)
      · exact absurd (groupCommitsByFeature_groups_epic _ _ _ g hft) hne
    · exact (groupBySprintAndTime_groups_shape _ _ g hsp).2
  · exact (groupByFileOverlap_groups_shape _ _ g hfi).2

/-- Witness for the amended C2: on a concrete 2-commit input sharing
PR 5, the produced pr group (not of type epic) has 2 members. -/
theorem C2_witness :
    2 ≤ ({ groupKey := "PR-5", groupType := "pr", groupName := "T",
           commits := [{ hash := "a", message := "m", author := "x", email := "e",
                         timestamp := 0 },
                       { hash := "b", message := "m", author := "x", email := "e",
                         timestamp := 0 }],
           jiraIssues := [], labels := [], prNumber := some 5 } :
      CommitGroup).commits.length :=
  (C2_amended_min_size
    [{ hash := "a", message := "m", author := "x", email := "e", timestamp := 0 },
     { hash := "b", message := "m", author := "x", email := "e", timestamp := 0 }]
    [] [("a", { number := 5, title := "T", description := "", state := "open" }),
        ("b", { number := 5, title := "T", description := "", state := "open" })]
    7 (mkRat 1 2)).1 _ (by decide) (by decide)

lemma alGet_isSome_iff_mem {κ α : Type} [BEq κ] [LawfulBEq κ] {l : List (κ × α)} {k : κ} :
    (alGet l k).isSome ↔ k ∈ l.map (fun kv => kv.1) := by
  induction l with
  | nil => simp [alGet]
  | cons kw rest ih =>
    unfold alGet
    by_cases hk : kw.1 == k
    · rw [if_pos hk]
      have hkk : kw.1 = k := by simpa using hk
      simp [hkk]
    · rw [if_neg hk]
      simp only [List.map_cons, List.mem_cons]
      rw [ih]
      constructor
      · exact Or.inr
      · rintro (h | h)
        · exact absurd (beq_iff_eq.mpr h.symm) hk
        · exact h

lemma prStep_inv (prCache : List (String × GitHubPR))
    (st : List (Nat × GitHubPR × List Commit) × List Commit)
    (done : List Commit) (c : Commit) (h : prPass1Inv prCache st done) :
    prPass1Inv prCache (prStep prCache st c) (done ++ [c]) := by
  obtain ⟨hcont, hnd, hiff⟩ := h
  unfold prStep
  cases hget : alGet prCache c.hash with
  | none =>
    have hnum : prNumOf prCache c = none := by simp [prNumOf, hget]
    refine ⟨?_, hnd, ?_⟩
    · intro b hb
      rw [List.filter_append]
      have hnil : ([c].filter (fun d => prNumOf prCache d == some b.1)) = [] := by
        simp [hnum]
      rw [hnil, List.append_nil]
      exact hcont b hb
    · intro num
      rw [hiff num]
      constructor
      · rintro ⟨d, hd, hdp⟩
        exact ⟨d, List.mem_append_left _ hd, hdp⟩
      · rintro ⟨d, hd, hdp⟩
        rcases List.mem_append.mp hd with hd | hd
        · exact ⟨d, hd, hdp⟩
        · rw [List.mem_singleton] at hd
          subst hd
          rw [hnum] at hdp
          exact absurd hdp (by simp)
  | some pr =>
    have hnum : prNumOf prCache c = some pr.number := by simp [prNumOf, hget]
    dsimp only
    cases hst : alGet st.1 pr.number with
    | some entry =>
      have hkeys : (alSet st.1 pr.number (entry.1, entry.2 ++ [c])).map (fun kv => kv.1)
          = st.1.map (fun kv => kv.1) :=
        alSet_keys_of_present (by rw [hst]; rfl)
      refine ⟨?_, ?_, ?_⟩
      · intro b hb
        rcases mem_alSet_cases hnd hb with ⟨hm, hne⟩ | he
        · rw [List.filter_append]
          have hnil : ([c].filter (fun d => prNumOf prCache d == some b.1)) = [] := by
            simp [hnum, Ne.symm hne]
          rw [hnil, List.append_nil]
          exact hcont b hm
        · rw [he]
          show entry.2 ++ [c]
            = (done ++ [c]).filter (fun d => prNumOf prCache d == some pr.number)
          rw [List.filter_append]
          have hone : ([c].filter (fun d => prNumOf prCache d == some pr.number))
              = [c] := by
            simp [hnum]
          rw [hone]
          exact congrArg (fun l => l ++ [c]) (hcont (pr.number, entry) (alGet_mem hst))
      · rw [hkeys]
        exact hnd
      · intro num
        rw [alGet_isSome_iff_mem, hkeys, ← alGet_isSome_iff_mem, hiff num]
        constructor
        · rintro ⟨d, hd, hdp⟩
          exact ⟨d, List.mem_append_left _ hd, hdp⟩
        · rintro ⟨d, hd, hdp⟩
          rcases List.mem_append.mp hd with hd | hd
          · exact ⟨d, hd, hdp⟩
          · rw [List.mem_singleton] at hd
            subst hd
            rw [hnum] at hdp
            have hnumeq : pr.number = num := Option.some.inj hdp
            rw [← hnumeq]
            exact (hiff pr.number).mp (by rw [hst]; rfl)
    | none =>
      have hnotin : pr.number ∉ st.1.map (fun b => b.1) := by
        rw [← alGet_isSome_iff_mem, hst]
        simp
      refine ⟨?_, ?_, ?_⟩
      · intro b hb
        rcases List.mem_append.mp hb with hm | he
        · have hne : b.1 ≠ pr.number := by
            intro heq
            exact hnotin (heq ▸ List.mem_map.mpr ⟨b, hm, rfl⟩)
          rw [List.filter_append]
          have hnil : ([c].filter (fun d => prNumOf prCache d == some b.1)) = [] := by
            simp [hnum, Ne.symm hne]
          rw [hnil, List.append_nil]
          exact hcont b hm
        · rw [List.mem_singleton] at he
          rw [he]
          show [c] = (done ++ [c]).filter (fun d => prNumOf prCache d == some pr.number)
          rw [List.filter_append]
          have hdone : (done.filter (fun d => prNumOf prCache d == some pr.number))
              = [] := by
            rw [List.filter_eq_nil_iff]
            intro d hd hdp
            have : (alGet st.1 pr.number).isSome :=
              (hiff pr.number).mpr ⟨d, hd, by simpa using hdp⟩
            rw [hst] at this
            exact absurd this (by simp)
          rw [hdone, List.nil_append]
          simp [hnum]
      · rw [List.map_append]
        refine List.Nodup.append hnd (by simp) ?_
        intro a ha hb
        simp only [List.map_cons, List.map_nil, List.mem_singleton] at hb
        rw [hb] at ha
        exact hnotin ha
      · intro num
        rw [alGet_isSome_iff_mem, List.map_append]
        rw [List.mem_append]
        rw [← alGet_isSome_iff_mem, hiff num]
        constructor
        · rintro (⟨d, hd, hdp⟩ | hnew)
          · exact ⟨d, List.mem_append_left _ hd, hdp⟩
          · simp only [List.map_cons, List.map_nil, List.mem_singleton] at hnew
            refine ⟨c, List.mem_append_right _ (List.mem_singleton.mpr rfl), ?_⟩
            rw [hnum, hnew]
        · rintro ⟨d, hd, hdp⟩
          rcases List.mem_append.mp hd with hd | hd
          · exact Or.inl ⟨d, hd, hdp⟩
          · rw [List.mem_singleton] at hd
            subst hd
            rw [hnum] at hdp
            right
            simp only [List.map_cons, List.map_nil, List.mem_singleton]
            exact (Option.some.inj hdp).symm

lemma prPass1_inv (prCache : List (String × GitHubPR)) :
    ∀ (cs : List Commit) (st : List (Nat × GitHubPR × List Commit) × List Commit)
      (done : List Commit), prPass1Inv prCache st done →
      prPass1Inv prCache (cs.foldl (prStep prCache) st) (done ++ cs) := by
  intro cs
  induction cs with
  | nil =>
    intro st done h
    rw [List.append_nil]
    exact h
  | cons c cs ih =>
    intro st done h
    rw [List.foldl_cons]
    have heq : done ++ c :: cs = (done ++ [c]) ++ cs := by simp
    rw [heq]
    exact ih (prStep prCache st c) (done ++ [c]) (prStep_inv prCache st done c h)

/-- The bucket state of groupByPR after its first loop over the whole
input. -/
lemma groupByPR_bucket_content (commits : List Commit)
    (prCache : List (String × GitHubPR)) :
    prPass1Inv prCache (commits.foldl (prStep prCache) ([], [])) commits := by
  have h := prPass1_inv prCache commits ([], []) []
    ⟨by intro b hb; exact absurd hb (List.not_mem_nil b), List.nodup_nil, by
      intro num
      simp [alGet]⟩
  rw [List.nil_append] at h
  exact h

/-- A bucket of size at least 2 yields its pr group in groupByPR's
output. -/
lemma mem_groupByPR_groups {commits : List Commit} {prCache : List (String × GitHubPR)}
    {b : Nat × GitHubPR × List Commit}
    (hb : b ∈ (commits.foldl (prStep prCache) ([], [])).1) (hlen : 2 ≤ b.2.2.length) :
    mkPRGroup b ∈ (groupByPR commits prCache).groups := by
  have heq : (groupByPR commits prCache).groups
      = sortByCommitCountDesc (((commits.foldl (prStep prCache) ([], [])).1).foldl
          prBucketStep ([], (commits.foldl (prStep prCache) ([], [])).2)).1 := rfl
  rw [heq, mem_sortByCommitCountDesc, prBucket_foldl]
  show mkPRGroup b ∈ [] ++ _
  rw [List.nil_append]
  exact List.mem_map.mpr ⟨b, List.mem_filter.mpr ⟨hb, by simpa using hlen⟩, rfl⟩

/-- With pairwise-distinct hashes, a member commit's hash occurs
exactly once in the input. -/
lemma countP_hash_eq_one {commits : List Commit} {c : Commit}
    (hnd : (commits.map (fun d => d.hash)).Nodup) (hc : c ∈ commits) :
    commits.countP (fun d => d.hash == c.hash) = 1 := by
  have hmem : c.hash ∈ commits.map (fun d => d.hash) := List.mem_map.mpr ⟨c, hc, rfl⟩
  have h1 := List.count_eq_one_of_mem hnd hmem
  rw [count_map_eq_countP] at h1
  rw [← h1]
  apply List.countP_congr
  intro d _
  constructor <;> intro h <;> simpa using h

/-- Claim C7: a commit that falls into a PR bucket of size at least 2,
even when it also resolves to an epic shared with another commit, ends
up in a pr-type group of the tiered pipeline and in no epic-type
group. -/
theorem C7_pr_over_epic (commits : List Commit)
    (jiraCache : List (String × JiraIssue)) (prCache : List (String × GitHubPR))
    (tw : Int) (τ : ℚ) (c : Commit) (pr : GitHubPR) (e : String)
    (hnd : (commits.map (fun d => d.hash)).Nodup)
    (hc : c ∈ commits)
    (hpr : alGet prCache c.hash = some pr)
    (hbig : 2 ≤ (commits.filter
      (fun d => prNumOf prCache d == some pr.number)).length)
    (hepic : (commitSignals jiraCache c.message).2.1 = some e)
    (hshared : ∃ d ∈ commits, d.hash ≠ c.hash
      ∧ (commitSignals jiraCache d.message).2.1 = some e) :
    (∃ g ∈ (groupCommitsMultiSignal commits jiraCache prCache tw τ).groups,
        g.groupType = "pr" ∧ c ∈ g.commits)
    ∧ (∀ g ∈ (groupCommitsMultiSignal commits jiraCache prCache tw τ).groups,
        g.groupType = "epic" → c ∉ g.commits) := by
  have htier1 : 0 < prCache.length := by
    cases prCache with
    | nil => exact absurd hpr (by simp [alGet])
    | cons p ps => simp
  obtain ⟨hcontent, hndk, hiffk⟩ := groupByPR_bucket_content commits prCache
  have hnum : prNumOf prCache c = some pr.number := by simp [prNumOf, hpr]
  have hsome : (alGet (commits.foldl (prStep prCache) ([], [])).1 pr.number).isSome :=
    (hiffk pr.number).mpr ⟨c, hc, hnum⟩
  obtain ⟨entry, hentry⟩ := Option.isSome_iff_exists.mp hsome
  have hbcontent := hcontent (pr.number, entry) (alGet_mem hentry)
  have hblen : 2 ≤ (pr.number, entry).2.2.length := by
    rw [hbcontent]
    exact hbig
  have hgmem0 := mem_groupByPR_groups (alGet_mem hentry) hblen
  have hcmemb : c ∈ (mkPRGroup (pr.number, entry)).commits := by
    show c ∈ (pr.number, entry).2.2
    rw [hbcontent]
    exact List.mem_filter.mpr ⟨hc, by simp [hnum]⟩
  have hmsT1 : msTier1 commits prCache = groupByPR commits prCache := by
    unfold msTier1
    rw [if_pos htier1]
  constructor
  · refine ⟨mkPRGroup (pr.number, entry), ?_, rfl, hcmemb⟩
    rw [multiSignal_groups_eq]
    refine List.mem_append_left _ (List.mem_append_left _ (List.mem_append_left _ ?_))
    rw [hmsT1]
    exact hgmem0
  · intro g hgm hge hcm
    have hone : commits.countP (fun d => d.hash == c.hash) = 1 :=
      countP_hash_eq_one hnd hc
    have hcount1 := (groupByPR_perm commits prCache).countP_eq
      (fun d => d.hash == c.hash)
    rw [List.countP_append, hone] at hcount1
    have hpos1 : 0 < ((groupByPR commits prCache).groups.flatMap
        (fun g => g.commits)).countP (fun d => d.hash == c.hash) :=
      List.countP_pos_iff.mpr ⟨c, List.mem_flatMap.mpr
        ⟨mkPRGroup (pr.number, entry), hgmem0, hcmemb⟩, by simp⟩
    have hung0 : ((groupByPR commits prCache).ungrouped).countP
        (fun d => d.hash == c.hash) = 0 := by omega
    have hcount2 := (groupCommitsByFeature_perm (groupByPR commits prCache).ungrouped
      jiraCache none).countP_eq (fun d => d.hash == c.hash)
    rw [List.countP_append, hung0] at hcount2
    have hg_feat : g ∈ (groupCommitsByFeature (groupByPR commits prCache).ungrouped
        jiraCache none).groups := by
      rw [multiSignal_groups_eq] at hgm
      rcases List.mem_append.mp hgm with hg' | hfi
      · rcases List.mem_append.mp hg' with hg'' | hsp
        · rcases List.mem_append.mp hg'' with ht1 | hft
          · rw [hmsT1] at ht1
            have htype := (groupByPR_groups_typed commits prCache g ht1).1
            rw [htype] at hge
            exact absurd hge (by decide)
          · unfold msFeat at hft
            rw [hmsT1] at hft
            exact hft
        · have htype := (groupBySprintAndTime_groups_shape _ _ g hsp).1
          rw [htype] at hge
          exact absurd hge (by decide)
      · have htype := (groupByFileOverlap_groups_shape _ _ g hfi).1
        rw [htype] at hge
        exact absurd hge (by decide)
    have hpos2 : 0 < ((groupCommitsByFeature (groupByPR commits prCache).ungrouped
        jiraCache none).groups.flatMap (fun g => g.commits)).countP
        (fun d => d.hash == c.hash) :=
      List.countP_pos_iff.mpr ⟨c, List.mem_flatMap.mpr ⟨g, hg_feat, hcm⟩, by simp⟩
    omega

/-- Witness for C7 on a concrete input: two commits in PR 5 both
resolving to the shared epic E; the first lands in a pr group and in no
epic group. -/
theorem C7_witness :
    (∃ g ∈ (groupCommitsMultiSignal
        [{ hash := "a", message := "AB-1 x", author := "x", email := "e",
           timestamp := 0 },
         { hash := "b", message := "AB-1 y", author := "x", email := "e",
           timestamp := 0 }]
        [("AB-1", { key := "AB-1", summary := "s", issueType := "t", status := "st",
                    epicKey := some "E" })]
        [("a", { number := 5, title := "T", description := "", state := "open" }),
         ("b", { number := 5, title := "T", description := "", state := "open" })]
        7 (mkRat 1 2)).groups,
      g.groupType = "pr"
        ∧ { hash := "a", message := "AB-1 x", author := "x", email := "e",
            timestamp := 0 } ∈ g.commits)
    ∧ (∀ g ∈ (groupCommitsMultiSignal
        [{ hash := "a", message := "AB-1 x", author := "x", email := "e",
           timestamp := 0 },
         { hash := "b", message := "AB-1 y", author := "x", email := "e",
           timestamp := 0 }]
        [("AB-1", { key := "AB-1", summary := "s", issueType := "t", status := "st",
                    epicKey := some "E" })]
        [("a", { number := 5, title := "T", description := "", state := "open" }),
         ("b", { number := 5, title := "T", description := "", state := "open" })]
        7 (mkRat 1 2)).groups,
      g.groupType = "epic"
        → { hash := "a", message := "AB-1 x", author := "x", email := "e",
            timestamp := 0 } ∉ g.commits) :=
  C7_pr_over_epic
    [{ hash := "a", message := "AB-1 x", author := "x", email := "e", timestamp := 0 },
     { hash := "b", message := "AB-1 y", author := "x", email := "e", timestamp := 0 }]
    [("AB-1", { key := "AB-1", summary := "s", issueType := "t", status := "st",
                epicKey := some "E" })]
    [("a", { number := 5, title := "T", description := "", state := "open" }),
     ("b", { number := 5, title := "T", description := "", state := "open" })]
    7 (mkRat 1 2)
    { hash := "a", message := "AB-1 x", author := "x", email := "e", timestamp := 0 }
    { number := 5, title := "T", description := "", state := "open" } "E"
    (by decide) (by decide) (by decide) (by decide) (by decide) (by decide)

/-! ### Uniqueness of group keys, per tier -/
/-- The pr groups carry pairwise-distinct PR numbers: they are the
keys of the bucket map. -/
lemma groupByPR_prNumbers_nodup (commits : List Commit)
    (prCache : List (String × GitHubPR)) :
    (((groupByPR commits prCache).groups).map (fun g => g.prNumber)).Nodup := by
  have heq : (groupByPR commits prCache).groups
      = sortByCommitCountDesc (((commits.foldl (prStep prCache) ([], [])).1).foldl
          prBucketStep ([], (commits.foldl (prStep prCache) ([], [])).2)).1 := rfl
  rw [heq]
  refine ((sortByCommitCountDesc_perm _).map (fun g => g.prNumber)).nodup_iff.mpr ?_
  rw [prBucket_foldl]
  show ((([] : List CommitGroup)
    ++ (((commits.foldl (prStep prCache) ([], [])).1).filter
      (fun b => decide (2 ≤ b.2.2.length))).map mkPRGroup).map
    (fun g => g.prNumber)).Nodup
  rw [List.nil_append, List.map_map]
  have hmapeq : (((commits.foldl (prStep prCache) ([], [])).1).filter
        (fun b => decide (2 ≤ b.2.2.length))).map
        ((fun g => g.prNumber) ∘ mkPRGroup)
      = ((((commits.foldl (prStep prCache) ([], [])).1).filter
        (fun b => decide (2 ≤ b.2.2.length))).map (fun b => b.1)).map some := by
    rw [List.map_map]
    apply List.map_congr_left
    intro b _
    rfl
  rw [hmapeq]
  refine List.Nodup.map (Option.some_injective _) ?_
  refine List.Nodup.sublist (List.Sublist.map _ (List.filter_sublist _)) ?_
  exact (groupByPR_bucket_content commits prCache).2.1

/-- Every group of the pipeline's PR stage has type pr and at least 2
member commits (trivially, when the stage is skipped). -/
lemma msTier1_groups_typed (commits : List Commit) (prCache : List (String × GitHubPR)) :
    ∀ g ∈ (msTier1 commits prCache).groups,
      g.groupType = "pr" ∧ 2 ≤ g.commits.length := by
  intro g hg
  unfold msTier1 at hg
  by_cases hpc : 0 < prCache.length
  · rw [if_pos hpc] at hg
    exact groupByPR_groups_typed commits prCache g hg
  · rw [if_neg hpc] at hg
    exact absurd hg (List.not_mem_nil g)

lemma msTier1_prNumbers_nodup (commits : List Commit)
    (prCache : List (String × GitHubPR)) :
    (((msTier1 commits prCache).groups).map (fun g => g.prNumber)).Nodup := by
  unfold msTier1
  by_cases hpc : 0 < prCache.length
  · rw [if_pos hpc]
    exact groupByPR_prNumbers_nodup commits prCache
  · rw [if_neg hpc]
    exact List.nodup_nil

/-- C9: refuted as stated — the sprint tier keys every time cluster of
one sprint with the same `sprint-` key, so two time clusters of the
same sprint collide.  Four commits of sprint S in two far-apart time
clusters yield two groups both keyed sprint-S, despite pairwise
distinct input hashes. -/
theorem C9_counterexample :
    (([{ hash := "a", message := "AB-1 w", author := "x", email := "e",
         timestamp := 0 },
       { hash := "b", message := "AB-1 x", author := "x", email := "e",
         timestamp := 0 },
       { hash := "c", message := "AB-1 y", author := "x", email := "e",
         timestamp := 1000000000000 },
       { hash := "d", message := "AB-1 z", author := "x", email := "e",
         timestamp := 1000000000000 }].map (fun c : Commit => c.hash)).Nodup)
    ∧ ((groupCommitsMultiSignal
        [{ hash := "a", message := "AB-1 w", author := "x", email := "e",
           timestamp := 0 },
         { hash := "b", message := "AB-1 x", author := "x", email := "e",
           timestamp := 0 },
         { hash := "c", message := "AB-1 y", author := "x", email := "e",
           timestamp := 1000000000000 },
         { hash := "d", message := "AB-1 z", author := "x", email := "e",
           timestamp := 1000000000000 }]
        [("AB-1", { key := "AB-1", summary := "s", issueType := "t", status := "st",
                    sprint := some "S" })] [] 7 (mkRat 1 2)).groups.map
      (fun g => g.groupKey)) = ["sprint-S", "sprint-S"]
    ∧ ¬ (((groupCommitsMultiSignal
        [{ hash := "a", message := "AB-1 w", author := "x", email := "e",
           timestamp := 0 },
         { hash := "b", message := "AB-1 x", author := "x", email := "e",
           timestamp := 0 },
         { hash := "c", message := "AB-1 y", author := "x", email := "e",
           timestamp := 1000000000000 },
         { hash := "d", message := "AB-1 z", author := "x", email := "e",
           timestamp := 1000000000000 }]
        [("AB-1", { key := "AB-1", summary := "s", issueType := "t", status := "st",
                    sprint := some "S" })] [] 7 (mkRat 1 2)).groups.map
      (fun g => g.groupKey)).Nodup) := by
  refine ⟨by decide, by decide, by decide⟩

/-- C9 (amended): group keys are unique within each keyed tier — the
groupKey strings of the epic-type groups are pairwise distinct, and
the PR numbers of the pr-type groups are pairwise distinct.  Sprint
and file-overlap groups can repeat a key. -/
theorem C9_amended_keys (commits : List Commit)
    (jiraCache : List (String × JiraIssue)) (prCache : List (String × GitHubPR))
    (tw : Int) (τ : ℚ) :
    ((((groupCommitsMultiSignal commits jiraCache prCache tw τ).groups.filter
        (fun g => g.groupType == "epic")).map (fun g => g.groupKey)).Nodup)
    ∧ ((((groupCommitsMultiSignal commits jiraCache prCache tw τ).groups.filter
        (fun g => g.groupType == "pr")).map (fun g => g.prNumber)).Nodup) := by
  rw [multiSignal_groups_eq]
  rw [List.filter_append, List.filter_append, List.filter_append,
    List.filter_append, List.filter_append, List.filter_append]
  have ht1_epic : (msTier1 commits prCache).groups.filter
      (fun g => g.groupType == "epic") = [] := by
    rw [List.filter_eq_nil_iff]
    intro g hg
    rw [(msTier1_groups_typed commits prCache g hg).1]
    decide
  have hsp_epic : (msSprint commits jiraCache prCache tw).groups.filter
      (fun g => g.groupType == "epic") = [] := by
    rw [List.filter_eq_nil_iff]
    intro g hg
    rw [(groupBySprintAndTime_groups_shape _ _ g hg).1]
    decide
  have hfi_epic : (msFile commits jiraCache prCache tw τ).groups.filter
      (fun g => g.groupType == "epic") = [] := by
    rw [List.filter_eq_nil_iff]
    intro g hg
    rw [(groupByFileOverlap_groups_shape _ _ g hg).1]
    decide
  have hft_epic : (msFeat commits jiraCache prCache).groups.filter
      (fun g => g.groupType == "epic") = (msFeat commits jiraCache prCache).groups := by
    rw [List.filter_eq_self]
    intro g hg
    rw [(groupCommitsByFeature_groups_epic _ _ _ g hg)]
    decide
  have ht1_pr : (msTier1 commits prCache).groups.filter
      (fun g => g.groupType == "pr") = (msTier1 commits prCache).groups := by
    rw [List.filter_eq_self]
    intro g hg
    rw [(msTier1_groups_typed commits prCache g hg).1]
    decide
  have hft_pr : (msFeat commits jiraCache prCache).groups.filter
      (fun g => g.groupType == "pr") = [] := by
    rw [List.filter_eq_nil_iff]
    intro g hg
    rw [(groupCommitsByFeature_groups_epic _ _ _ g hg)]
    decide
  have hsp_pr : (msSprint commits jiraCache prCache tw).groups.filter
      (fun g => g.groupType == "pr") = [] := by
    rw [List.filter_eq_nil_iff]
    intro g hg
    rw [(groupBySprintAndTime_groups_shape _ _ g hg).1]
    decide
  have hfi_pr : (msFile commits jiraCache prCache tw τ).groups.filter
      (fun g => g.groupType == "pr") = [] := by
    rw [List.filter_eq_nil_iff]
    intro g hg
    rw [(groupByFileOverlap_groups_shape _ _ g hg).1]
    decide
  constructor
  · rw [ht1_epic, hsp_epic, hfi_epic, hft_epic]
    rw [List.nil_append, List.append_nil, List.append_nil]
    exact groupCommitsByFeature_keys_nodup _ _ _
  · rw [ht1_pr, hsp_pr, hfi_pr, hft_pr]
    rw [List.append_nil, List.append_nil, List.append_nil]
    exact msTier1_prNumbers_nodup commits prCache

/-! ### Empty-files commits are isolated in the file-overlap tier -/
lemma calculateFileOverlap_nil_left (fs : List String) :
    calculateFileOverlap [] fs = 0 := by
  unfold calculateFileOverlap
  have hcond : ([] : List String).length = 0 ∨ fs.length = 0 := Or.inl rfl
  rw [if_pos hcond]

lemma calculateFileOverlap_nil_right (fs : List String) :
    calculateFileOverlap fs [] = 0 := by
  unfold calculateFileOverlap
  have hcond : fs.length = 0 ∨ ([] : List String).length = 0 := Or.inr rfl
  rw [if_pos hcond]

lemma overlapNeighbors_empty_of_nofiles {commits : List Commit} {τ : ℚ} (hτ : 0 < τ)
    {j : Nat} (hj : filesAt commits j = []) :
    overlapNeighbors commits τ j = [] := by
  unfold overlapNeighbors
  rw [List.filter_eq_nil_iff]
  intro k _
  rw [hj, calculateFileOverlap_nil_left, decide_eq_false (not_le.mpr hτ)]
  simp

lemma not_mem_overlapNeighbors_of_nofiles {commits : List Commit} {τ : ℚ} (hτ : 0 < τ)
    {j : Nat} (hj : filesAt commits j = []) (m : Nat) :
    j ∉ overlapNeighbors commits τ m := by
  unfold overlapNeighbors
  intro hmem
  have hp := (List.mem_filter.mp hmem).2
  rw [hj, calculateFileOverlap_nil_right, decide_eq_false (not_le.mpr hτ)] at hp
  simp at hp

/-- Fold principle keeping track of which list element contributed a
group. -/
lemma foldl_groups_prop_mem {σ α : Type} (step : σ → α → σ) (proj : σ → List CommitGroup)
    (P : CommitGroup → α → Prop)
    (hstep : ∀ st a g, g ∈ proj (step st a) → g ∈ proj st ∨ P g a) :
    ∀ (l : List α) (st : σ), ∀ g ∈ proj (l.foldl step st),
      g ∈ proj st ∨ ∃ a ∈ l, P g a := by
  intro l
  induction l with
  | nil =>
    intro st g hg
    exact Or.inl hg
  | cons a l ih =>
    intro st g hg
    rw [List.foldl_cons] at hg
    rcases ih (step st a) g hg with hg' | ⟨b, hb, hp⟩
    · rcases hstep st a g hg' with hg'' | hp
      · exact Or.inl hg''
      · exact Or.inr ⟨a, List.mem_cons_self _ _, hp⟩
    · exact Or.inr ⟨b, List.mem_cons_of_mem _ hb, hp⟩

lemma fileClusterStep_ungrouped_mono (commits : List Commit)
    (st : List CommitGroup × List Commit) (cl : List Nat) :
    st.2 ⊆ (fileClusterStep commits st cl).2 := by
  unfold fileClusterStep
  by_cases hcl : 2 ≤ cl.length
  · rw [if_pos hcl]
    exact fun x hx => hx
  · rw [if_neg hcl]
    cases cl with
    | nil => exact fun x hx => hx
    | cons i rest => exact fun x hx => List.mem_append_left _ hx

lemma fileFold_ungrouped_mono (commits : List Commit) :
    ∀ (clusters : List (List Nat)) (st : List CommitGroup × List Commit),
      st.2 ⊆ (clusters.foldl (fileClusterStep commits) st).2 := by
  intro clusters
  induction clusters with
  | nil => exact fun st x hx => hx
  | cons cl clusters ih =>
    intro st x hx
    rw [List.foldl_cons]
    exact ih (fileClusterStep commits st cl) (fileClusterStep_ungrouped_mono commits st cl hx)

lemma fileFold_ungrouped_of_singleton (commits : List Commit) :
    ∀ (clusters : List (List Nat)) (st : List CommitGroup × List Commit) (i : Nat),
      [i] ∈ clusters →
      commitAt commits i ∈ (clusters.foldl (fileClusterStep commits) st).2 := by
  intro clusters
  induction clusters with
  | nil =>
    intro st i hi
    exact absurd hi (List.not_mem_nil _)
  | cons cl clusters ih =>
    intro st i hi
    rw [List.foldl_cons]
    rcases List.mem_cons.mp hi with heq | hmem
    · subst heq
      refine fileFold_ungrouped_mono commits clusters _ ?_
      show commitAt commits i ∈ (fileClusterStep commits st [i]).2
      unfold fileClusterStep
      rw [if_neg (by simp)]
      exact List.mem_append_right _ (List.mem_singleton.mpr rfl)
    · exact ih _ i hmem

/-- Claim C10: with a strictly positive overlap threshold, a commit
with an absent or empty filesChanged list is never a member of any
group returned by groupByFileOverlap, and always appears in its
ungrouped output. -/
theorem C10_empty_files_ungrouped (commits : List Commit) (τ : ℚ) (c : Commit)
    (hτ : 0 < τ) (hc : c ∈ commits) (hfiles : c.filesChanged.getD [] = []) :
    (∀ g ∈ (groupByFileOverlap commits τ).groups, c ∉ g.commits)
    ∧ c ∈ (groupByFileOverlap commits τ).ungrouped := by
  by_cases hsmall : commits.length < 2
  · have heq : groupByFileOverlap commits τ = { groups := [], ungrouped := commits } := by
      unfold groupByFileOverlap
      rw [if_pos hsmall]
    rw [heq]
    exact ⟨fun g hg => absurd hg (List.not_mem_nil g), hc⟩
  · have heq : groupByFileOverlap commits τ
        = { groups := sortByCommitCountDesc
              (((connectedComponents commits τ).foldl (fileClusterStep commits)
                ([], [])).1),
            ungrouped := ((connectedComponents commits τ).foldl (fileClusterStep commits)
                ([], [])).2 } := by
      unfold groupByFileOverlap
      rw [if_neg hsmall]
    rw [heq]
    have hflat := connectedComponents_flatten_perm commits τ
    constructor
    · intro g hg hcg
      rw [mem_sortByCommitCountDesc] at hg
      have hstep : ∀ (st : List CommitGroup × List Commit) (cl : List Nat)
          (g2 : CommitGroup), g2 ∈ (fileClusterStep commits st cl).1 →
          g2 ∈ st.1 ∨ (g2.commits = cl.map (commitAt commits) ∧ 2 ≤ cl.length) := by
        intro st cl g2 hg2
        unfold fileClusterStep at hg2
        by_cases hcl : 2 ≤ cl.length
        · rw [if_pos hcl] at hg2
          rcases List.mem_append.mp hg2 with h' | h'
          · exact Or.inl h'
          · right
            rw [List.mem_singleton] at h'
            rw [h']
            exact ⟨rfl, hcl⟩
        · rw [if_neg hcl] at hg2
          cases cl with
          | nil => exact Or.inl hg2
          | cons i rest => exact Or.inl hg2
      rcases foldl_groups_prop_mem (fileClusterStep commits) (fun st => st.1) _ hstep
          (connectedComponents commits τ) ([], []) g hg with h0 | ⟨cl, hclmem, hcle, hcl2⟩
      · exact absurd h0 (List.not_mem_nil g)
      · rw [hcle] at hcg
        rcases List.mem_map.mp hcg with ⟨j, hjcl, hjc⟩
        have hjn : j < commits.length := by
          have hjflat : j ∈ (connectedComponents commits τ).flatten :=
            List.mem_flatten.mpr ⟨cl, hclmem, hjcl⟩
          exact List.mem_range.mp (hflat.mem_iff.mp hjflat)
        have hgetj : commits[j]? = some c := by
          have : commits[j]? = some commits[j] := List.getElem?_eq_getElem hjn
          rw [this]
          rw [← hjc]
          unfold commitAt
          rw [this]
        have hfj : filesAt commits j = [] := by
          unfold filesAt
          rw [hgetj]
          exact hfiles
        have hiso := connectedComponents_isolated commits τ j
          (overlapNeighbors_empty_of_nofiles hτ hfj)
          (not_mem_overlapNeighbors_of_nofiles hτ hfj)
          cl hclmem hjcl
        rw [hiso] at hcl2
        simp at hcl2
    · obtain ⟨i, hgeti⟩ := List.getElem?_of_mem hc
      have hin : i < commits.length := (List.getElem?_eq_some_iff.mp hgeti).1
      have hiflat : i ∈ (connectedComponents commits τ).flatten :=
        hflat.mem_iff.mpr (List.mem_range.mpr hin)
      obtain ⟨cl, hclmem, hicl⟩ := List.mem_flatten.mp hiflat
      have hfi : filesAt commits i = [] := by
        unfold filesAt
        rw [hgeti]
        exact hfiles
      have hiso := connectedComponents_isolated commits τ i
        (overlapNeighbors_empty_of_nofiles hτ hfi)
        (not_mem_overlapNeighbors_of_nofiles hτ hfi)
        cl hclmem hicl
      rw [hiso] at hclmem
      have hca : commitAt commits i = c := by
        unfold commitAt
        rw [hgeti]
      rw [← hca]
      exact fileFold_ungrouped_of_singleton commits (connectedComponents commits τ)
        ([], []) i hclmem

/-- Witness for C10: a one-file commit and a no-files commit at
threshold one half; the no-files commit is ungrouped. -/
theorem C10_witness :
    (∀ g ∈ (groupByFileOverlap
        [{ hash := "a", message := "m", author := "x", email := "e", timestamp := 0,
           filesChanged := some ["f"] },
         { hash := "b", message := "m", author := "x", email := "e", timestamp := 0 }]
        (mkRat 1 2)).groups,
      ({ hash := "b", message := "m", author := "x", email := "e", timestamp := 0 }
          : Commit) ∉ g.commits)
    ∧ ({ hash := "b", message := "m", author := "x", email := "e", timestamp := 0 }
        : Commit) ∈ (groupByFileOverlap
        [{ hash := "a", message := "m", author := "x", email := "e", timestamp := 0,
           filesChanged := some ["f"] },
         { hash := "b", message := "m", author := "x", email := "e", timestamp := 0 }]
        (mkRat 1 2)).ungrouped :=
  C10_empty_files_ungrouped
    [{ hash := "a", message := "m", author := "x", email := "e", timestamp := 0,
       filesChanged := some ["f"] },
     { hash := "b", message := "m", author := "x", email := "e", timestamp := 0 }]
    (mkRat 1 2)
    { hash := "b", message := "m", author := "x", email := "e", timestamp := 0 }
    (by decide) (by decide) (by decide)

end CommitKit
